import Mathlib

/-!
Verification development for the Part 2 AI Job Source agent
(`part2_agent.py`).  Python strings are modelled as `List Char`; the
pieces of `urllib.parse` the agent calls (`urlsplit`, `urlparse`,
`urlunparse`, `urljoin`) are translated from CPython (3.12 line,
including the WHATWG leading-C0/space lstrip and tab/CR/LF removal);
network and browser effects are explicit oracles.  Unicode-only
divergences (Python's `str.lower`/`str.strip` on non-ASCII characters)
are outside the scope of the statements below, which restrict inputs to
ASCII where it matters.
-/

abbrev Str := List Char

def str (s : String) : Str := s.data

/-- Python `str.lower`, restricted to ASCII case mapping. -/
def pyLower (s : Str) : Str := s.map Char.toLower

/-- Characters stripped by Python's default `str.strip()` (ASCII part). -/
def isPySpace (c : Char) : Bool :=
  c = ' ' || c = '\t' || c = '\n' || c = '\r' || c = '\x0b' || c = '\x0c'

/-- Python `s.strip()` (both-ends whitespace strip, ASCII scope). -/
def pyStrip (s : Str) : Str :=
  ((s.dropWhile isPySpace).reverse.dropWhile isPySpace).reverse

/-- WHATWG C0-control-or-space class used by CPython's `urlsplit` lstrip. -/
def isC0OrSpace (c : Char) : Bool := c.toNat ≤ 32

/-- CPython `urlsplit` removes tab, CR and LF anywhere in the url. -/
def isUnsafeUrlByte (c : Char) : Bool := c = '\t' || c = '\r' || c = '\n'

def removeUnsafeBytes (s : Str) : Str := s.filter (fun c => !isUnsafeUrlByte c)

/-- Index of the first occurrence of `sep` as a contiguous block of `s`. -/
def firstOcc (sep : Str) (s : Str) : Option Nat :=
  if sep.isPrefixOf s then some 0
  else
    match s with
    | [] => none
    | _ :: t => (firstOcc sep t).map (· + 1)

/-- Python `sub in s` substring test. -/
def inStr (sub s : Str) : Bool := (firstOcc sub s).isSome

/-- Fuel-driven body of Python `s.split(sep)` for a non-empty `sep`. -/
def splitPyF (sep : Str) : Nat → Str → List Str
  | 0, s => [s]
  | fuel + 1, s =>
    match firstOcc sep s with
    | none => [s]
    | some i => s.take i :: splitPyF sep fuel (s.drop (i + sep.length))

/-- Python `s.split(sep)` (non-empty separator; Python raises on `""`). -/
def splitPy (sep s : Str) : List Str :=
  if sep = [] then [s] else splitPyF sep (s.length + 1) s

/-- Python `'sep'.join(xs)` for list-of-strings `xs`. -/
def joinSep (sep : Str) : List Str → Str
  | [] => []
  | [x] => x
  | x :: y :: xs => x ++ sep ++ joinSep sep (y :: xs)

/-- Python `s.split(c, 1)` head part: everything before the first `c`. -/
def before1 (c : Char) (s : Str) : Str := s.takeWhile (· ≠ c)

/-- Python `s.split(c, 1)` tail part: everything after the first `c`. -/
def after1 (c : Char) (s : Str) : Str := (s.dropWhile (· ≠ c)).drop 1

/-- Python `c in s` for a single character. -/
def hasChar (c : Char) (s : Str) : Bool := s.contains c

/-- Python `s.rfind(c)`: index of last occurrence, `none` when absent. -/
def rfindChar (c : Char) (s : Str) : Option Nat :=
  match firstOcc [c] s.reverse with
  | none => none
  | some i => some (s.length - 1 - i)

/-- The part of `s` after its last `/` (all of `s` when there is none). -/
def afterLastSlash (s : Str) : Str :=
  (s.reverse.takeWhile (· ≠ '/')).reverse

def headD (l : List Str) : Str := l.headD []

def getLastD (l : List Str) : Str := l.getLastD []

/-- Every character of `l` satisfies `P`. -/
def AllP (P : Char → Prop) (l : Str) : Prop := ∀ c, c ∈ l → P c

instance AllP.decidable (P : Char → Prop) [DecidablePred P] (l : Str) :
    Decidable (AllP P l) :=
  List.decidableBAll P l

/-! CPython `urllib.parse` model (the subset the agent calls). -/

/-- Characters CPython accepts in a URL scheme. -/
def schemeChars : Str :=
  str "abcdefghijklmnopqrstuvwxyzABCDEFGHIJKLMNOPQRSTUVWXYZ0123456789+-."

def usesRelative : List Str :=
  [[], str "ftp", str "http", str "gopher", str "nntp", str "imap",
   str "wais", str "file", str "https", str "shttp", str "mms",
   str "prospero", str "rtsp", str "rtspu", str "sftp", str "svn",
   str "svn+ssh", str "ws", str "wss"]

def usesNetloc : List Str :=
  [[], str "ftp", str "http", str "gopher", str "nntp", str "telnet",
   str "imap", str "wais", str "file", str "mms", str "https", str "shttp",
   str "snews", str "prospero", str "rtsp", str "rtspu", str "rsync",
   str "svn", str "svn+ssh", str "sftp", str "nfs", str "git",
   str "git+ssh", str "ws", str "wss", str "itms-services"]

def usesParams : List Str :=
  [[], str "ftp", str "hdl", str "prospero", str "http", str "imap",
   str "https", str "shttp", str "rtsp", str "rtspu", str "sip",
   str "sips", str "mms", str "sftp", str "tel"]

/-- Result of `urlsplit`: scheme, netloc, path, query, fragment. -/
structure UrlSplit where
  scheme : Str
  netloc : Str
  path : Str
  query : Str
  fragment : Str
deriving DecidableEq, Repr, Inhabited

/-- Result of `urlparse`: `urlsplit` plus the params component. -/
structure UrlParts where
  scheme : Str
  netloc : Str
  path : Str
  params : Str
  query : Str
  fragment : Str
deriving DecidableEq, Repr, Inhabited

def stripC0 (s : Str) : Str :=
  ((s.dropWhile isC0OrSpace).reverse.dropWhile isC0OrSpace).reverse

def isNetlocDelim (c : Char) : Bool := c = '/' || c = '?' || c = '#'

/-- Scheme detection of CPython `urlsplit`: `(scheme, rest)` — the part
before the first `:` is the scheme when it is non-empty, starts with an
ASCII letter and consists of scheme characters; otherwise the default
scheme is used and the url is left whole. -/
def splitScheme (url dflt : Str) : Str × Str :=
  match firstOcc [':'] url with
  | some i =>
    if 0 < i ∧ (url.headD ' ').toNat < 128 ∧ (url.headD ' ').isAlpha ∧
        (url.take i).all (fun c => schemeChars.contains c)
    then (pyLower (url.take i), url.drop (i + 1))
    else (dflt, url)
  | none => (dflt, url)

/-- Netloc extraction of CPython `urlsplit` (`_splitnetloc`): when the
rest starts with `//`, the netloc runs up to the first `/`, `?` or `#`. -/
def splitNetloc (rest : Str) : Str × Str :=
  if rest.take 2 = str "//" then
    (((rest.drop 2).takeWhile (fun c => !isNetlocDelim c)),
     ((rest.drop 2).dropWhile (fun c => !isNetlocDelim c)))
  else ([], rest)

/-- Fragment split of CPython `urlsplit`: `rest.split('#', 1)`. -/
def splitFragment (rest : Str) : Str × Str :=
  if hasChar '#' rest then (before1 '#' rest, after1 '#' rest) else (rest, [])

/-- Query split of CPython `urlsplit`: `rest.split('?', 1)`. -/
def splitQuery (rest : Str) : Str × Str :=
  if hasChar '?' rest then (before1 '?' rest, after1 '?' rest) else (rest, [])

/-- CPython `urlsplit(url, scheme, allow_fragments=True)`.  The
bracketed-IPv6 `ValueError` paths are not modelled; statements that rely
on exactness exclude `[`/`]` by hypothesis. -/
def urlsplitM (url0 dflt0 : Str) : UrlSplit :=
  let url := removeUnsafeBytes (url0.dropWhile isC0OrSpace)
  let dflt := removeUnsafeBytes (stripC0 dflt0)
  let sr := splitScheme url dflt
  let nr := splitNetloc sr.2
  let fr := splitFragment nr.2
  let qr := splitQuery fr.1
  ⟨sr.1, nr.1, qr.1, qr.2, fr.2⟩

/-- CPython `_splitparams` (callers guard that `;` occurs in the path). -/
def splitparamsM (u : Str) : Str × Str :=
  if hasChar '/' u then
    match rfindChar '/' u with
    | some j =>
      match firstOcc [';'] (u.drop j) with
      | some k => (u.take (j + k), u.drop (j + k + 1))
      | none => (u, [])
    | none => (u, [])
  else
    match firstOcc [';'] u with
    | some i => (u.take i, u.drop (i + 1))
    | none => (u, [])

/-- CPython `urlparse(url, scheme, allow_fragments=True)`. -/
def urlparseM (url dflt : Str) : UrlParts :=
  let s := urlsplitM url dflt
  if s.scheme ∈ usesParams ∧ hasChar ';' s.path then
    let pp := splitparamsM s.path
    ⟨s.scheme, s.netloc, pp.1, pp.2, s.query, s.fragment⟩
  else ⟨s.scheme, s.netloc, s.path, [], s.query, s.fragment⟩

/-- The `/`-insertion of CPython `urlunsplit`: a non-empty path not
starting with `/` gets one prepended before the netloc is attached. -/
def pInsert (url : Str) : Str :=
  if url ≠ [] ∧ url.take 1 ≠ ['/'] then '/' :: url else url

/-- CPython `urlunsplit`. -/
def urlunsplitM (scheme netloc url query fragment : Str) : Str :=
  let u1 :=
    if netloc ≠ [] ∨ (url ≠ [] ∧ url.take 2 = str "//") then
      str "//" ++ netloc ++ pInsert url
    else url
  let u2 := if scheme ≠ [] then scheme ++ ':' :: u1 else u1
  let u3 := if query ≠ [] then u2 ++ '?' :: query else u2
  if fragment ≠ [] then u3 ++ '#' :: fragment else u3

/-- CPython `urlunparse`. -/
def urlunparseM (p : UrlParts) : Str :=
  let u := if p.params ≠ [] then p.path ++ ';' :: p.params else p.path
  urlunsplitM p.scheme p.netloc u p.query p.fragment

/-- Python slice assignment `segments[1:-1] = filter(None, segments[1:-1])`. -/
def filterMiddle (l : List Str) : List Str :=
  match l with
  | [] => []
  | [x] => [x]
  | x :: xs => x :: (xs.dropLast.filter (· ≠ [])) ++ [xs.getLastD []]

/-- The dot-segment resolution loop of CPython `urljoin` (pop on `..`,
skip `.`, append otherwise; a pop on an empty list is a no-op). -/
def resolveSegs (segments : List Str) : List Str :=
  segments.foldl
    (fun acc seg =>
      if seg = str ".." then acc.dropLast
      else if seg = str "." then acc
      else acc ++ [seg]) []

/-- The resolved path computed by the path-resolution branch of CPython
`urljoin`: dot-segment resolution of the combined segment list. -/
def resolvedPath (bp up : Str) : Str :=
  let baseParts0 := splitPy (str "/") bp
  let baseParts := if baseParts0.getLastD [] ≠ [] then baseParts0.dropLast else baseParts0
  let segments :=
    if up.take 1 = ['/'] then splitPy (str "/") up
    else filterMiddle (baseParts ++ splitPy (str "/") up)
  let resolved0 := resolveSegs segments
  let resolved :=
    if segments.getLastD [] = str ".." ∨ segments.getLastD [] = str "." then
      resolved0 ++ [[]]
    else resolved0
  let p0 := joinSep (str "/") resolved
  if p0 = [] then str "/" else p0

/-- The path-resolution branch of CPython `urljoin` (taken when the
relative URL carries a path or params): dot-segment resolution of the
combined segment list, then `urlunparse`. -/
def urljoinResolve (bpath : Str) (u : UrlParts) (netloc : Str) : Str :=
  urlunparseM ⟨u.scheme, netloc, resolvedPath bpath u.path, u.params, u.query, u.fragment⟩

/-- CPython `urljoin(base, url, allow_fragments=True)`. -/
def urljoinM (base url : Str) : Str :=
  if base = [] then url
  else if url = [] then base
  else
    let b := urlparseM base []
    let u := urlparseM url b.scheme
    if u.scheme ≠ b.scheme ∨ u.scheme ∉ usesRelative then url
    else if u.scheme ∈ usesNetloc ∧ u.netloc ≠ [] then urlunparseM u
    else
      let netloc := if u.scheme ∈ usesNetloc then b.netloc else u.netloc
      if u.path = [] ∧ u.params = [] then
        let query := if u.query = [] then b.query else u.query
        urlunparseM ⟨u.scheme, netloc, b.path, b.params, query, u.fragment⟩
      else urljoinResolve b.path u netloc

/-! Model of `part2_agent.py`.  Network and browser effects are supplied
by a `Net` oracle; parsed pages (BeautifulSoup documents) are `Doc`
records carrying exactly the pieces the agent reads. -/

/-- Truthiness of an optional Python string (`None` and `""` are falsy). -/
def truthyO (s : Option Str) : Bool :=
  match s with
  | some v => !v.isEmpty
  | none => false

/-- Python `a or b` on optional strings. -/
def orStr (a b : Option Str) : Option Str := if truthyO a then a else b

def CAREER_KEYWORDS : List Str :=
  [str "career", str "careers", str "jobs", str "join", str "vacancies",
   str "openings", str "join-us", str "work-with-us"]

def JOB_KEYWORDS : List Str :=
  [str "job", str "position", str "apply", str "opening", str "/jobs/",
   str "/open-positions/"]

def ATS_HOSTS : List Str :=
  [str "lever.co", str "greenhouse.io", str "workday.com",
   str "smartrecruiters.com", str "apply.workable.com", str "jobvite.com"]

def hasAnyKeyword (ks : List Str) (s : Str) : Bool := ks.any (fun k => inStr k s)

/-- `is_linkedin_domain`: substring test on the lower-cased netloc. -/
def is_linkedin_domain (url : Str) : Bool :=
  if url = [] then false
  else
    let host := pyLower (urlparseM url []).netloc
    inStr (str "linkedin.com") host || inStr (str "lnkd.in") host

/-- `is_ats_url`: any known ATS host occurs in the lower-cased netloc. -/
def is_ats_url (url : Str) : Bool :=
  if url = [] then false
  else
    let host := pyLower (urlparseM url []).netloc
    ATS_HOSTS.any (fun ats => inStr ats host)

/-- `normalize_url(base, href)`. -/
def normalize_url (base : Str) (href : Option Str) : Option Str :=
  match href with
  | none => none
  | some h0 =>
    if h0 = [] then none
    else
      let h := pyStrip h0
      if List.isPrefixOf (str "#") h ∨ List.isPrefixOf (str "javascript:") (pyLower h) ∨
          List.isPrefixOf (str "mailto:") (pyLower h) then none
      else if List.isPrefixOf (str "//") h then
        let scheme0 := (urlparseM base []).scheme
        let scheme := if scheme0 = [] then str "https" else scheme0
        some (scheme ++ ':' :: h)
      else some (urljoinM base h)

/-- Printable ASCII other than space and the square brackets (the
bracketed-IPv6 `ValueError` paths of `urlsplit` are not modelled). -/
def cleanChar (c : Char) : Bool :=
  decide (32 < c.toNat) && decide (c.toNat < 127) && !(c == '[') && !(c == ']')

/-- A clean character that is additionally none of the `?`, `#`, `;`
component markers. -/
def plainChar (c : Char) : Bool :=
  cleanChar c && !(c == '?') && !(c == '#') && !(c == ';')

/-- A base URL in canonical shape: clean `;`-free characters, an
`http`/`https` scheme and a non-empty authority. -/
def canonicalHttpBase (b : Str) : Bool :=
  b.all (fun c => cleanChar c && !(c == ';')) &&
  ((urlparseM b []).scheme == str "http" || (urlparseM b []).scheme == str "https") &&
  !((urlparseM b []).netloc == [])

/-- A parsed page: the pieces of the BeautifulSoup document the agent
reads.  `titleTag = some t` models a `<title>` tag whose
`.string or ""` is `t`; `og` models the content attribute of an
`og:site_name` meta tag; `resultA` the href of the DuckDuckGo
`result__a` anchor; `footer` the anchors inside a `<footer>` element;
`scripts` the string contents of `<script>` tags. -/
structure Doc where
  anchors : List (Str × Str)
  text : Str
  titleTag : Option Str
  og : Option Str
  resultA : Option Str
  footer : Option (List (Str × Str))
  scripts : List Str
deriving DecidableEq, Repr, Inhabited

/-- A raw `requests` response: `ok` is the truthiness of the response
object (status below 400) and `url` its final URL after redirects. -/
structure RawResp where
  ok : Bool
  url : Str
deriving DecidableEq, Repr, Inhabited

/-- Environment oracle: `head`/`rget` answer the raw requests issued by
`resolve_final_url` (`none` models a raised exception), `get` answers
`safe_get` (`some doc` iff some retry attempt returned an ok response),
`renderDoc` the Playwright-rendered posting page, `searchDoc` the
DuckDuckGo POST for a given query, and `scroll i` the anchor hrefs
visible on the search page after scroll iteration `i`. -/
structure Net where
  head : Str → Option RawResp
  rget : Str → Option RawResp
  get : Str → Option Doc
  renderDoc : Str → Option Doc
  searchDoc : Str → Option Doc
  scroll : Nat → List Str

/-- `first_external_link(soup, avoid_domain)`. -/
def first_external_link (anchors : List (Str × Str)) (avoid : Option Str) : Option Str :=
  anchors.findSome? (fun a =>
    let href := pyStrip a.1
    let avoidOk :=
      match avoid with
      | none => true
      | some d => if d = [] then true else !inStr d href
    if List.isPrefixOf (str "http") href && avoidOk then some href else none)

/-- `resolve_final_url(url)`: HEAD following redirects, then GET, then
the input unchanged. -/
def resolve_final_url (o : Net) (url : Str) : Option Str :=
  if url = [] then none
  else
    let viaGet : Option Str :=
      match o.rget url with
      | some r => if r.ok ∧ r.url ≠ [] then some r.url else some url
      | none => some url
    match o.head url with
    | some r => if r.ok ∧ r.url ≠ [] then some r.url else viaGet
    | none => viaGet

/-- The shared company-name heuristic of both extraction paths:
`og:site_name` content (stripped) if truthy, else the
`title.split(" at ")[-1].split("|")[0].strip()` pattern when the title
contains `" at "`. -/
def companyFromOgTitle (og title : Option Str) : Option Str :=
  let c1 : Option Str :=
    match og with
    | some content => if content ≠ [] then some (pyStrip content) else none
    | none => none
  if truthyO c1 then c1
  else
    match title with
    | none => c1
    | some t =>
      if inStr (str " at ") t then
        some (pyStrip (headD (splitPy (str "|") (getLastD (splitPy (str " at ") t)))))
      else c1

/-- Anchor scan of `render_linkedin_job_with_playwright`: anchor text
containing "company website" or equal (stripped) to "website", else the
first external non-LinkedIn link. -/
def renderExtractDoc (d : Doc) : Option Str × Option Str :=
  let company := companyFromOgTitle d.og d.titleTag
  let byText := d.anchors.findSome? (fun a =>
    let txt := pyLower a.2
    if inStr (str "company website") txt ∨ pyStrip txt = str "website" then some a.1 else none)
  let site := if truthyO byText then byText else first_external_link d.anchors (some (str "linkedin.com"))
  (company, site)

/-- `render_linkedin_job_with_playwright`: `(None, None)` when
Playwright is unavailable or rendering fails. -/
def render_linkedin_job_with_playwright (avail : Bool) (o : Net) (jobUrl : Str) :
    Option Str × Option Str :=
  if ¬ avail then (none, none)
  else
    match o.renderDoc jobUrl with
    | none => (none, none)
    | some d => renderExtractDoc d

/-- `extract_linkedin_job_requests`: static-fetch fallback extraction. -/
def extract_linkedin_job_requests (o : Net) (jobUrl : Str) : Option Str × Option Str :=
  match o.get jobUrl with
  | none => (none, none)
  | some d => (companyFromOgTitle d.og d.titleTag,
               first_external_link d.anchors (some (str "linkedin.com")))

/-- `search_company_site_duckduckgo`. -/
def search_company_site_duckduckgo (o : Net) (name : Str) : Option Str :=
  if name = [] then none
  else
    let query := name ++ str " official website"
    match o.searchDoc query with
    | none => none
    | some d =>
      match d.resultA with
      | some h => if h ≠ [] then some h else first_external_link d.anchors none
      | none => first_external_link d.anchors none

/-- Characters allowed by the `[^\s'"<>]` class of the ATS regex. -/
def atsAllowed (c : Char) : Bool :=
  !(isPySpace c || c = '\'' || c = '"' || c = '<' || c = '>')

/-- Match of `https?://[^\s'"<>]*ATS[^\s'"<>]*` anchored at the start of
`s`: with both stars greedy the match, when it exists, is the scheme
part followed by the maximal run of allowed characters, and it exists
iff the ATS host occurs inside that run. -/
def atsMatchAt (ats s : Str) : Option Str :=
  let pre? : Option (Str × Str) :=
    if List.isPrefixOf (str "https://") s then some (str "https://", s.drop 8)
    else if List.isPrefixOf (str "http://") s then some (str "http://", s.drop 7)
    else none
  match pre? with
  | none => none
  | some pr =>
    let run := pr.2.takeWhile atsAllowed
    if inStr ats run then some (pr.1 ++ run) else none

/-- `re.search` of the ATS pattern: leftmost match position wins. -/
def reSearchAts (ats : Str) : Str → Option Str
  | [] => none
  | c :: t =>
    match atsMatchAt ats (c :: t) with
    | some m => some m
    | none => reSearchAts ats t

def careerPaths : List Str :=
  [str "/careers", str "/careers/", str "/jobs", str "/jobs/",
   str "/about/careers", str "/company/careers", str "/join-us"]

/-- `find_career_page(company_site_url)`: path probes, homepage anchor
scan, footer scan, then embedded-ATS script scan. -/
def find_career_page (o : Net) (site : Str) : Option Str :=
  if site = [] then none
  else
    let resolved := (resolve_final_url o site).getD site
    let parsed0 := urlparseM resolved []
    let fixed := if parsed0.scheme = [] then str "https://" ++ resolved else resolved
    let parsed := urlparseM fixed []
    let base := parsed.scheme ++ str "://" ++ parsed.netloc
    let byPath := careerPaths.findSome? (fun p =>
      let candidate := urljoinM base p
      match o.get candidate with
      | some r =>
        if hasAnyKeyword (CAREER_KEYWORDS ++ JOB_KEYWORDS) (pyLower r.text) then some candidate
        else none
      | none => none)
    match byPath with
    | some c => some c
    | none =>
      match o.get base with
      | none => none
      | some d =>
        let anchorList := d.anchors.filterMap (fun a =>
          let txt := pyLower a.2
          match normalize_url base (some a.1) with
          | none => none
          | some full =>
            if full = [] then none
            else if hasAnyKeyword CAREER_KEYWORDS (pyLower a.1) ∨ hasAnyKeyword CAREER_KEYWORDS txt
            then some (full, txt) else none)
        let byAnchor := anchorList.findSome? (fun ft =>
          match o.get ft.1 with
          | some rr =>
            if hasAnyKeyword (CAREER_KEYWORDS ++ JOB_KEYWORDS) (pyLower rr.text) then some ft.1
            else none
          | none => none)
        match byAnchor with
        | some c => some c
        | none =>
          let byFooter :=
            match d.footer with
            | none => none
            | some fas => fas.findSome? (fun a =>
                match normalize_url base (some a.1) with
                | none => none
                | some full =>
                  if full ≠ [] ∧ hasAnyKeyword CAREER_KEYWORDS (pyLower full) then
                    match o.get full with
                    | some _ => some full
                    | none => none
                  else none)
          match byFooter with
          | some c => some c
          | none =>
            d.scripts.findSome? (fun sc =>
              ATS_HOSTS.findSome? (fun ats => reSearchAts ats sc))

def jobSubPaths : List Str := [str "/jobs", str "/openings", str "/careers/jobs"]

/-- The final fallback of `extract_one_job_from_career`: probe the
sub-paths `/jobs`, `/openings`, `/careers/jobs` of the career page's
origin, returning the first reachable one with a job keyword. -/
def jobSubPathProbe (o : Net) (careerUrl : Str) : Option Str :=
  let parsed := urlparseM careerUrl []
  let base := parsed.scheme ++ str "://" ++ parsed.netloc
  jobSubPaths.findSome? (fun p =>
    let cand := urljoinM base p
    match o.get cand with
    | some rr => if hasAnyKeyword JOB_KEYWORDS (pyLower rr.text) then some cand else none
    | none => none)

/-- The anchor scan of `extract_one_job_from_career`: first anchor
matching a job keyword in href or text whose normalized target is
truthy, not javascript-schemed, and mailto-free. -/
def jobAnchorScan (careerUrl : Str) (anchors : List (Str × Str)) : Option Str :=
  anchors.findSome? (fun a =>
    let txt := pyLower a.2
    if hasAnyKeyword JOB_KEYWORDS (pyLower a.1) ∨ hasAnyKeyword JOB_KEYWORDS txt then
      match normalize_url careerUrl (some a.1) with
      | some cand =>
        if cand ≠ [] ∧ ¬ List.isPrefixOf (str "javascript:") (pyLower cand) ∧
            ¬ inStr (str "mailto:") cand
        then some cand else none
      | none => none
    else none)

/-- `extract_one_job_from_career(career_url)`. -/
def extract_one_job_from_career (o : Net) (careerUrl : Str) : Option Str :=
  if careerUrl = [] then none
  else
    match o.get careerUrl with
    | none => none
    | some d =>
      match jobAnchorScan careerUrl d.anchors with
      | some c => some c
      | none =>
        if is_ats_url careerUrl then some careerUrl
        else jobSubPathProbe o careerUrl

/-- The Python `set` of collected identifiers, modelled as a
duplicate-free list (`add` is a no-op on members; iteration order of a
Python set is unspecified, insertion order is used here). -/
def setInsert (x : Option Str) (s : List (Option Str)) : List (Option Str) :=
  if x ∈ s then s else s ++ [x]

/-- One pass of the scroll-collect loop body: every anchor href
containing `/jobs/view/` contributes `normalize_url(search_url,
href.split("?")[0])` (possibly `None`) to the set. -/
def scrapeStep (searchUrl : Str) (hrefs : List Str) (s : List (Option Str)) :
    List (Option Str) :=
  hrefs.foldl (fun acc h =>
    if inStr (str "/jobs/view/") h then
      setInsert (normalize_url searchUrl (some (headD (splitPy (str "?") h)))) acc
    else acc) s

/-- The scroll loop of `scrape_jobs_from_search_page`: `i` is the index
of the next iteration, the fuel starts at 20 (`max_scrolls`), `prev`
holds the size of the set after the previous iteration.  Returns the
collected set together with the number of iterations executed. -/
def scrapeAux (o : Net) (u : Str) : Nat → Nat → List (Option Str) → Option Nat →
    List (Option Str) × Nat
  | i, 0, s, _ => (s, i)
  | i, fuel + 1, s, prev =>
    let s2 := scrapeStep u (o.scroll i) s
    if prev = some s2.length then (s2, i + 1)
    else scrapeAux o u (i + 1) fuel s2 (some s2.length)

/-- `scrape_jobs_from_search_page`: the collected identifier set (as a
duplicate-free list) together with the executed iteration count. -/
def scrape_jobs_from_search_page (avail : Bool) (o : Net) (u : Str) :
    List (Option Str) × Nat :=
  if ¬ avail then ([], 0)
  else scrapeAux o u 0 20 [] none

/-- The set collected after `i` full iterations of the scroll loop. -/
def scrapeTrace (o : Net) (u : Str) : Nat → List (Option Str)
  | 0 => []
  | i + 1 => scrapeStep u (o.scroll i) (scrapeTrace o u i)

/-- The scroll loop entered at iteration `i` with the corresponding
state (`scrape_jobs_from_search_page` with Playwright available equals
`scrapeRunFrom o u 0 20`). -/
def scrapeRunFrom (o : Net) (u : Str) (i fuel : Nat) : List (Option Str) × Nat :=
  scrapeAux o u i fuel (scrapeTrace o u i)
    (if i = 0 then none else some (scrapeTrace o u i).length)

/-- A row of `part2_results.csv`. -/
structure Row where
  company_name : Str
  company_website : Str
  career_page : Str
  job_url : Str
deriving DecidableEq, Repr

/-- The slug of the last-resort website guess:
`re.sub(r"[^a-z0-9\-\.]", "", company_name.lower())`. -/
def slugify (s : Str) : Str :=
  (pyLower s).filter (fun c =>
    ('a' ≤ c ∧ c ≤ 'z') ∨ ('0' ≤ c ∧ c ≤ '9') ∨ c = '-' ∨ c = '.')

/-- Steps A and B of `process_single_job`: Playwright extraction, then
the requests fallback when either field is still falsy. -/
def identityStage (usePw avail : Bool) (o : Net) (jobUrl : Str) : Option Str × Option Str :=
  let ra := if usePw ∧ avail then render_linkedin_job_with_playwright avail o jobUrl
            else (none, none)
  let cn1 := orStr ra.1 none
  let cw1 := orStr ra.2 none
  if ¬ truthyO cn1 ∨ ¬ truthyO cw1 then
    let r2 := extract_linkedin_job_requests o jobUrl
    (orStr cn1 r2.1, orStr cw1 r2.2)
  else (cn1, cw1)

/-- Steps C, D and E of `process_single_job`: redirect-resolve the
candidate site (discarding a LinkedIn destination), fall back to the
web search (likewise validated), and finally to the unvalidated
`https://www.<slug>` guess. -/
def websiteStage (o : Net) (cn cwB : Option Str) : Option Str :=
  let cwC :=
    if truthyO cwB then
      let finalSite := (resolve_final_url o (cwB.getD [])).getD []
      if is_linkedin_domain finalSite then none else some finalSite
    else cwB
  let cwD :=
    if ¬ truthyO cwC ∧ truthyO cn then
      match search_company_site_duckduckgo o (cn.getD []) with
      | some found =>
        if found ≠ [] then
          let final := (resolve_final_url o found).getD []
          if ¬ is_linkedin_domain final then some final else cwC
        else cwC
      | none => cwC
    else cwC
  if ¬ truthyO cwD ∧ truthyO cn then some (str "https://www." ++ slugify (cn.getD []))
  else cwD

/-- Step F of `process_single_job` plus the LinkedIn sanity gate on the
found career page. -/
def gatedCareer (o : Net) (cwE : Option Str) : Option Str :=
  let cp0 := if truthyO cwE then find_career_page o (cwE.getD []) else none
  match cp0 with
  | some c => if c ≠ [] ∧ is_linkedin_domain c then none else cp0
  | none => none

/-- Step G of `process_single_job` plus the LinkedIn gate on the
extracted job opening. -/
def gatedJob (o : Net) (cp : Option Str) : Option Str :=
  let jo0 := if truthyO cp then extract_one_job_from_career o (cp.getD []) else none
  match jo0 with
  | some j => if j ≠ [] ∧ is_linkedin_domain j then none else jo0
  | none => none

/-- `process_single_job(job_url, use_playwright)`: returns the emitted
row, or `none` when the posting is skipped (`save_row` is called exactly
when the result is `some`). -/
def process_single_job (usePw avail : Bool) (o : Net) (jobUrl : Str) : Option Row :=
  let ab := identityStage usePw avail o jobUrl
  let cwE := websiteStage o ab.1 ab.2
  let cp := gatedCareer o cwE
  let jo := gatedJob o cp
  if ¬ truthyO cp then none
  else some ⟨ab.1.getD [], cwE.getD [], cp.getD [], jo.getD []⟩

/-- `run_main(input_url, use_playwright)`: the list of rows appended to
the sink.  Python iterates `list(job_urls)` in unspecified order and
passes a `None` member verbatim; this model iterates `Finset.toList`
and passes the empty string for a `None` identifier. -/
def run_main (avail usePw : Bool) (o : Net) (inputUrl : Str) : List Row :=
  let inp := pyStrip inputUrl
  if inStr (str "/jobs/view/") inp then
    (process_single_job usePw avail o inp).toList
  else
    let jobs := if usePw ∧ avail then (scrape_jobs_from_search_page avail o inp).1 else []
    if jobs = [] then []
    else jobs.filterMap (fun j => process_single_job usePw avail o (j.getD []))

/-! Tier views of `resolve_final_url` and concrete environments used by
the closed statements below. -/

/-- The HEAD tier of `resolve_final_url`: `some` iff the HEAD request
neither raised nor produced a falsy response/URL. -/
def headTier (o : Net) (u : Str) : Option Str :=
  match o.head u with
  | some r => if r.ok ∧ r.url ≠ [] then some r.url else none
  | none => none

/-- The GET tier of `resolve_final_url`. -/
def getTier (o : Net) (u : Str) : Option Str :=
  match o.rget u with
  | some r => if r.ok ∧ r.url ≠ [] then some r.url else none
  | none => none

/-- Environment in which every request fails and every page is blank. -/
def netDefault : Net :=
  ⟨fun _ => none, fun _ => none, fun _ => none, fun _ => none, fun _ => none, fun _ => []⟩

def docEmpty : Doc := ⟨[], [], none, none, none, none, []⟩

/-- Posting page whose `og:site_name` is "LinkedIn.Com" and that carries
no usable anchors. -/
def docJobCex : Doc := { docEmpty with og := some (str "LinkedIn.Com") }

/-- A page whose text contains a career keyword. -/
def docCareersAcme : Doc := { docEmpty with text := str "careers at acme" }

/-- Environment for the aggregator-leak counterexample: the search
fallback fails, so the slug guess `https://www.linkedin.com` is kept,
while the career-page probe (after an oracle redirect to acme.com)
succeeds on a non-LinkedIn page. -/
def oCex1 : Net :=
  { netDefault with
    get := fun u =>
      if u = str "https://www.linkedin.com/jobs/view/123" then some docJobCex
      else if u = str "https://www.acme.com/careers" then some docCareersAcme
      else none,
    head := fun u =>
      if u = str "https://www.linkedin.com" then some ⟨true, str "https://www.acme.com"⟩
      else none }

/-- Posting page with no identity metadata and one external anchor. -/
def docJobW : Doc := { docEmpty with anchors := [(str "https://acme.example", str "x")] }

/-- A career page with a job keyword in its text and no anchors. -/
def docCareersW : Doc := { docEmpty with text := str "open jobs" }

/-- Environment in which identity resolution yields no company name but
an external site whose `/careers` probe succeeds. -/
def oW : Net :=
  { netDefault with
    get := fun u =>
      if u = str "https://www.linkedin.com/jobs/view/1" then some docJobW
      else if u = str "https://acme.example/careers" then some docCareersW
      else none,
    head := fun u =>
      if u = str "https://acme.example" then some ⟨true, str "https://acme.example"⟩
      else none }

/-- Environment whose rendered search page shows a posting link only on
scroll iteration 1 (iteration 0 contributes nothing). -/
def oScroll : Net := { netDefault with scroll := fun i => if i = 1 then [str "/jobs/view/1"] else [] }

def uSearch : Str := str "https://www.linkedin.com/jobs/search?keywords=x"

/-- Environment serving an empty ATS-hosted career page. -/
def oC7 : Net :=
  { netDefault with
    get := fun u => if u = str "https://boards.greenhouse.io/acme" then some docEmpty else none }

/-! Occurrence and substring lemmas. -/

theorem isPrefixOf_iff_append {a s : Str} : a.isPrefixOf s = true ↔ ∃ t, s = a ++ t := by
  induction a generalizing s with
  | nil => simp [List.isPrefixOf]
  | cons c a ih =>
    cases s with
    | nil => simp [List.isPrefixOf]
    | cons d t =>
      simp only [List.isPrefixOf, Bool.and_eq_true, beq_iff_eq, ih]
      constructor
      · rintro ⟨rfl, t', rfl⟩
        exact ⟨t', rfl⟩
      · rintro ⟨t', ht⟩
        injection ht with h1 h2
        exact ⟨h1.symm, t', h2⟩

theorem firstOcc_some {sep s : Str} {i : Nat} (h : firstOcc sep s = some i) :
    sep.isPrefixOf (s.drop i) = true ∧ ∀ j, j < i → sep.isPrefixOf (s.drop j) = false := by
  induction s generalizing i with
  | nil =>
    unfold firstOcc at h
    split at h
    · rename_i hp
      injection h with h
      subst h
      exact ⟨hp, fun j hj => absurd hj (Nat.not_lt_zero j)⟩
    · exact absurd h (by simp)
  | cons c t ih =>
    unfold firstOcc at h
    split at h
    · rename_i hp
      injection h with h
      subst h
      exact ⟨hp, fun j hj => absurd hj (Nat.not_lt_zero j)⟩
    · rename_i hp
      simp only [Option.map_eq_some'] at h
      obtain ⟨i', hi', rfl⟩ := h
      obtain ⟨h1, h2⟩ := ih hi'
      refine ⟨h1, fun j hj => ?_⟩
      cases j with
      | zero => simpa using Bool.eq_false_iff.mpr hp
      | succ j' => exact h2 j' (Nat.lt_of_succ_lt_succ hj)

theorem firstOcc_none {sep s : Str} (h : firstOcc sep s = none) :
    ∀ j, sep.isPrefixOf (s.drop j) = false := by
  induction s with
  | nil =>
    intro j
    unfold firstOcc at h
    split at h
    · exact absurd h (by simp)
    · rename_i hp
      simpa using Bool.eq_false_iff.mpr hp
  | cons c t ih =>
    intro j
    unfold firstOcc at h
    split at h
    · exact absurd h (by simp)
    · rename_i hp
      simp only [Option.map_eq_none'] at h
      cases j with
      | zero => simpa using Bool.eq_false_iff.mpr hp
      | succ j' => exact ih h j'

theorem firstOcc_le_of_occurs {sep s : Str} {i : Nat}
    (h : sep.isPrefixOf (s.drop i) = true) : ∃ j, j ≤ i ∧ firstOcc sep s = some j := by
  induction s generalizing i with
  | nil =>
    refine ⟨0, Nat.zero_le i, ?_⟩
    unfold firstOcc
    rw [if_pos]
    simpa using h
  | cons c t ih =>
    by_cases hp : sep.isPrefixOf (c :: t) = true
    · exact ⟨0, Nat.zero_le i, by unfold firstOcc; rw [if_pos hp]⟩
    · cases i with
      | zero => exact absurd h hp
      | succ i' =>
        obtain ⟨j, hj, hfo⟩ := ih (show sep.isPrefixOf (t.drop i') = true from h)
        refine ⟨j + 1, Nat.succ_le_succ hj, ?_⟩
        unfold firstOcc
        rw [if_neg hp]
        simp [hfo]

theorem inStr_iff {sub s : Str} : inStr sub s = true ↔ ∃ l r, s = l ++ sub ++ r := by
  unfold inStr
  constructor
  · intro h
    obtain ⟨i, hi⟩ := Option.isSome_iff_exists.mp h
    obtain ⟨h1, _⟩ := firstOcc_some hi
    obtain ⟨t, ht⟩ := isPrefixOf_iff_append.mp h1
    refine ⟨s.take i, t, ?_⟩
    conv_lhs => rw [← List.take_append_drop i s]
    rw [ht, List.append_assoc]
  · rintro ⟨l, r, rfl⟩
    have hocc : sub.isPrefixOf ((l ++ sub ++ r).drop l.length) = true := by
      rw [List.append_assoc, List.drop_left]
      exact isPrefixOf_iff_append.mpr ⟨r, rfl⟩
    obtain ⟨j, _, hfo⟩ := firstOcc_le_of_occurs hocc
    rw [List.append_assoc] at hfo
    simp [hfo]

theorem inStr_false_iff {sub s : Str} : inStr sub s = false ↔ ¬ ∃ l r, s = l ++ sub ++ r := by
  rw [← inStr_iff]
  exact ⟨fun h => by simp [h], fun h => Bool.eq_false_iff.mpr (fun hh => h hh)⟩

theorem truthyO_iff {x : Option Str} : truthyO x = true ↔ ∃ v, x = some v ∧ v ≠ [] := by
  cases x with
  | none => simp [truthyO]
  | some v => simp [truthyO, List.isEmpty_iff]

/-! Helper lemmas about the orchestration stages. -/

theorem gate_some_not_linkedin {z : Option Str} {c : Str}
    (h : (match z with
          | some v => if v ≠ [] ∧ is_linkedin_domain v = true then none else z
          | none => none) = some c)
    (hne : c ≠ []) : is_linkedin_domain c = false := by
  cases z with
  | none => simp at h
  | some v =>
    have h' : (if v ≠ [] ∧ is_linkedin_domain v = true then none else some v) = some c := h
    split at h'
    · simp at h'
    · rename_i hneg
      injection h' with h'
      subst h'
      by_contra hlk
      exact hneg ⟨hne, Bool.not_eq_false _ |>.mp hlk⟩

theorem gatedCareer_not_linkedin {o : Net} {x : Option Str} {c : Str}
    (h : gatedCareer o x = some c) (hne : c ≠ []) : is_linkedin_domain c = false := by
  simp only [gatedCareer] at h
  exact gate_some_not_linkedin h hne

theorem gatedJob_not_linkedin {o : Net} {x : Option Str} {j : Str}
    (h : gatedJob o x = some j) (hne : j ≠ []) : is_linkedin_domain j = false := by
  simp only [gatedJob] at h
  exact gate_some_not_linkedin h hne

/-- C3: for every non-empty input URL the redirect resolver returns a
non-`None` URL: the value of the no-body (HEAD) tier if it succeeds,
else the value of the full (GET) tier, else the input URL unchanged. -/
theorem resolve_final_url_tiers (o : Net) (u : Str) (hu : u ≠ []) :
    resolve_final_url o u ≠ none ∧
    resolve_final_url o u = some ((headTier o u).getD ((getTier o u).getD u)) := by
  have h2 : resolve_final_url o u = some ((headTier o u).getD ((getTier o u).getD u)) := by
    unfold resolve_final_url headTier getTier
    rw [if_neg hu]
    cases h1 : o.head u with
    | none =>
      cases h2 : o.rget u with
      | none => simp
      | some r => by_cases hr : r.ok = true ∧ r.url ≠ [] <;> simp [hr]
    | some r =>
      by_cases hr : r.ok = true ∧ r.url ≠ []
      · simp [hr]
      · cases h2 : o.rget u with
        | none => simp [hr]
        | some r2 => by_cases hr2 : r2.ok = true ∧ r2.url ≠ [] <;> simp [hr, hr2]
  exact ⟨by rw [h2]; simp, h2⟩

/-- Witness for C3 at a concrete input: with every request failing, the
resolver returns the input unchanged. -/
theorem resolve_final_url_tiers_witness :
    resolve_final_url netDefault (str "https://x") = some (str "https://x") := by
  have h := resolve_final_url_tiers netDefault (str "https://x") (by decide)
  exact h.2.trans (by decide)

/-- C10: aggregator classification is a substring test on the
lower-cased host (not exact equality): it holds iff `linkedin.com` or
`lnkd.in` occurs inside the netloc, it is false on the empty URL, and
the independent host `linkedin.community` is classified as the
aggregator. -/
theorem is_linkedin_domain_substring (u : Str) (hu : u ≠ []) :
    (is_linkedin_domain u = true ↔
      (∃ l r, pyLower (urlparseM u []).netloc = l ++ str "linkedin.com" ++ r) ∨
      (∃ l r, pyLower (urlparseM u []).netloc = l ++ str "lnkd.in" ++ r)) ∧
    is_linkedin_domain [] = false ∧
    is_linkedin_domain (str "https://linkedin.community/") = true := by
  refine ⟨?_, by decide, by decide⟩
  unfold is_linkedin_domain
  rw [if_neg hu]
  simp only [Bool.or_eq_true, inStr_iff]

/-- Witness for C10: the classifier on the `linkedin.community` host,
obtained from the substring characterization. -/
theorem is_linkedin_domain_substring_witness :
    is_linkedin_domain (str "https://linkedin.community/") = true :=
  (is_linkedin_domain_substring (str "https://linkedin.community/") (by decide)).2.2

/-- C5: without the rendering collaborator, listing expansion returns
the empty set (and runs zero iterations); a degraded listing run, and
more generally any listing run that collects zero posting identifiers,
emits zero rows and completes normally. -/
theorem degraded_listing_empty (o : Net) (usePw : Bool) (input : Str)
    (h : inStr (str "/jobs/view/") (pyStrip input) = false) :
    (∀ u, scrape_jobs_from_search_page false o u = ([], 0)) ∧
    run_main false usePw o input = [] ∧
    (∀ avail, (scrape_jobs_from_search_page avail o (pyStrip input)).1 = [] →
      run_main avail usePw o input = []) := by
  refine ⟨fun u => by simp [scrape_jobs_from_search_page], ?_, ?_⟩
  · unfold run_main
    simp [h, scrape_jobs_from_search_page]
  · intro avail hempty
    cases usePw <;> cases avail <;> simp_all [run_main]

/-- Witness for C5: a degraded run (no Playwright) on a listing URL
emits no rows. -/
theorem degraded_listing_empty_witness :
    run_main false true netDefault uSearch = [] :=
  (degraded_listing_empty netDefault true uSearch (by decide)).2.1

/-- C7: on a fetched career page none of whose anchors matches a job
keyword (in href or text), the extractor returns the career page URL
itself iff its host matches a known ATS (skipping the sub-path probe),
and otherwise proceeds to the sub-path probe fallback. -/
theorem ats_landing_shortcircuit (o : Net) (cu : Str) (d : Doc)
    (hcu : cu ≠ []) (hget : o.get cu = some d)
    (hno : ∀ a ∈ d.anchors,
      hasAnyKeyword JOB_KEYWORDS (pyLower a.1) = false ∧
      hasAnyKeyword JOB_KEYWORDS (pyLower a.2) = false) :
    extract_one_job_from_career o cu =
      if is_ats_url cu then some cu else jobSubPathProbe o cu := by
  have hb : jobAnchorScan cu d.anchors = none := by
    unfold jobAnchorScan
    rw [List.findSome?_eq_none_iff]
    intro a ha
    rcases hno a ha with ⟨h1, h2⟩
    simp [h1, h2]
  have hstep : extract_one_job_from_career o cu =
      (match jobAnchorScan cu d.anchors with
       | some c => some c
       | none => if is_ats_url cu then some cu else jobSubPathProbe o cu) := by
    unfold extract_one_job_from_career
    rw [if_neg hcu, hget]
  rw [hstep, hb]

/-- Witness for C7: an empty ATS-hosted career page is returned as its
own job opening. -/
theorem ats_landing_shortcircuit_witness :
    extract_one_job_from_career oC7 (str "https://boards.greenhouse.io/acme") =
      some (str "https://boards.greenhouse.io/acme") := by
  have h := ats_landing_shortcircuit oC7 (str "https://boards.greenhouse.io/acme") docEmpty
    (by decide) (by decide) (by intro a ha; simp [docEmpty] at ha)
  exact h.trans (by decide)

/-- C2: `process_single_job` appends a row iff the validated career
page is truthy, and every emitted row has a non-empty `career_page`
field (the other fields may be empty strings, as the witness shows). -/
theorem row_emitted_iff_career (usePw avail : Bool) (o : Net) (jobUrl : Str) :
    (process_single_job usePw avail o jobUrl ≠ none ↔
      truthyO (gatedCareer o (websiteStage o (identityStage usePw avail o jobUrl).1
        (identityStage usePw avail o jobUrl).2)) = true) ∧
    (∀ row, process_single_job usePw avail o jobUrl = some row → row.career_page ≠ []) := by
  constructor
  · by_cases ht : truthyO (gatedCareer o (websiteStage o (identityStage usePw avail o jobUrl).1
        (identityStage usePw avail o jobUrl).2)) = true
    · simp [process_single_job, ht]
    · simp [process_single_job, ht]
  · intro row hrow
    simp only [process_single_job] at hrow
    split at hrow
    · exact absurd hrow (by simp)
    · rename_i hcp
      injection hrow with hrow
      subst hrow
      have ht := not_not.mp hcp
      obtain ⟨v, hv, hvne⟩ := truthyO_iff.mp ht
      show (gatedCareer o _).getD [] ≠ []
      rw [hv]
      simpa using hvne

set_option maxHeartbeats 1600000 in
/-- Concrete successful run used by the C1 and C2 closed statements:
identity resolution finds a site but no company name, the career-page
probe succeeds, no job opening is found. -/
theorem psj_oW_eval :
    process_single_job false false oW (str "https://www.linkedin.com/jobs/view/1") =
      some ⟨[], str "https://acme.example", str "https://acme.example/careers", []⟩ := by
  have h1 : identityStage false false oW (str "https://www.linkedin.com/jobs/view/1") =
      (none, some (str "https://acme.example")) := by decide
  have h2 : websiteStage oW none (some (str "https://acme.example")) =
      some (str "https://acme.example") := by decide
  have h3 : gatedCareer oW (some (str "https://acme.example")) =
      some (str "https://acme.example/careers") := by decide
  have h4 : gatedJob oW (some (str "https://acme.example/careers")) = none := by decide
  simp only [process_single_job, h1, h2, h3, h4]
  decide

/-- Witness for C2: a row is emitted whose `company_name` and `job_url`
are empty strings while `career_page` is non-empty. -/
theorem row_emitted_iff_career_witness :
    process_single_job false false oW (str "https://www.linkedin.com/jobs/view/1") =
      some ⟨[], str "https://acme.example", str "https://acme.example/careers", []⟩ ∧
    (⟨[], str "https://acme.example", str "https://acme.example/careers", []⟩ : Row).career_page ≠
      [] :=
  ⟨psj_oW_eval,
   (row_emitted_iff_career false false oW (str "https://www.linkedin.com/jobs/view/1")).2 _
     psj_oW_eval⟩

/-- C1 (amended): the `career_page` and `job_url` fields of every
emitted row are never classified as the aggregator's domain (the
explicit gates before emission guarantee this; the unvalidated
`company_website` guess is the exception shown in the counterexample). -/
theorem emitted_row_fields_not_aggregator (usePw avail : Bool) (o : Net) (jobUrl : Str)
    (row : Row) (h : process_single_job usePw avail o jobUrl = some row) :
    is_linkedin_domain row.career_page = false ∧ is_linkedin_domain row.job_url = false := by
  simp only [process_single_job] at h
  split at h
  · exact absurd h (by simp)
  · rename_i hcp
    have ht := not_not.mp hcp
    obtain ⟨c, hc, hcne⟩ := truthyO_iff.mp ht
    injection h with h
    subst h
    constructor
    · show is_linkedin_domain ((gatedCareer _ _).getD []) = false
      rw [hc, Option.getD_some]
      exact gatedCareer_not_linkedin hc hcne
    · show is_linkedin_domain ((gatedJob _ _).getD []) = false
      cases hj : gatedJob o (gatedCareer o (websiteStage o
          (identityStage usePw avail o jobUrl).1 (identityStage usePw avail o jobUrl).2)) with
      | none => decide
      | some j =>
        by_cases hjne : j = []
        · subst hjne; decide
        · rw [Option.getD_some]
          exact gatedJob_not_linkedin hj hjne

/-- Witness for C1 (amended) at the concrete run of `psj_oW_eval`. -/
theorem emitted_row_fields_not_aggregator_witness :
    is_linkedin_domain
      ((⟨[], str "https://acme.example", str "https://acme.example/careers", []⟩ : Row).career_page) =
      false ∧
    is_linkedin_domain
      ((⟨[], str "https://acme.example", str "https://acme.example/careers", []⟩ : Row).job_url) =
      false :=
  emitted_row_fields_not_aggregator false false oW
    (str "https://www.linkedin.com/jobs/view/1") _ psj_oW_eval

set_option maxHeartbeats 1600000 in
/-- Counterexample to C1 as stated: a complete pipeline run that emits a
row whose `company_website` is `https://www.linkedin.com` — the
aggregator's own domain — because the last-resort slug guess of Step E
is never checked against the aggregator domain. -/
theorem emitted_row_aggregator_website_cex :
    process_single_job false false oCex1 (str "https://www.linkedin.com/jobs/view/123") =
      some ⟨str "LinkedIn.Com", str "https://www.linkedin.com",
            str "https://www.acme.com/careers", []⟩ ∧
    is_linkedin_domain (str "https://www.linkedin.com") = true := by
  constructor
  · have h1 : identityStage false false oCex1 (str "https://www.linkedin.com/jobs/view/123") =
        (some (str "LinkedIn.Com"), none) := by decide
    have h2 : websiteStage oCex1 (some (str "LinkedIn.Com")) none =
        some (str "https://www.linkedin.com") := by decide
    have h3 : gatedCareer oCex1 (some (str "https://www.linkedin.com")) =
        some (str "https://www.acme.com/careers") := by decide
    have h4 : gatedJob oCex1 (some (str "https://www.acme.com/careers")) = none := by decide
    simp only [process_single_job, h1, h2, h3, h4]
    decide
  · decide

/-! Lemmas about the scroll-collect loop (claim C4). -/

theorem scrapeStep_exists_append (u : Str) (hs : List Str) (s : List (Option Str)) :
    ∃ t, scrapeStep u hs s = s ++ t := by
  induction hs generalizing s with
  | nil => exact ⟨[], by simp [scrapeStep]⟩
  | cons h tl ih =>
    have hstep : scrapeStep u (h :: tl) s =
        scrapeStep u tl
          (if inStr (str "/jobs/view/") h = true then
            setInsert (normalize_url u (some (headD (splitPy (str "?") h)))) s
          else s) := by
      simp [scrapeStep]
    rw [hstep]
    split
    · unfold setInsert
      split
      · exact ih s
      · obtain ⟨w, hw⟩ := ih (s ++ [normalize_url u (some (headD (splitPy (str "?") h)))])
        exact ⟨_, by rw [hw, List.append_assoc]⟩
    · exact ih s

theorem scrapeStep_eq_of_length_eq {u : Str} {hs : List Str} {s : List (Option Str)}
    (h : (scrapeStep u hs s).length = s.length) : scrapeStep u hs s = s := by
  obtain ⟨t, ht⟩ := scrapeStep_exists_append u hs s
  rw [ht] at h ⊢
  have hlen := List.length_append s t
  have ht0 : t = [] := List.eq_nil_of_length_eq_zero (by omega)
  subst ht0
  simp

theorem scrapeTrace_succ (o : Net) (u : Str) (j : Nat) :
    scrapeTrace o u (j + 1) = scrapeStep u (o.scroll j) (scrapeTrace o u j) := rfl

theorem scrapeTrace_subset_succ (o : Net) (u : Str) (i : Nat) :
    scrapeTrace o u i ⊆ scrapeTrace o u (i + 1) := by
  obtain ⟨t, ht⟩ := scrapeStep_exists_append u (o.scroll i) (scrapeTrace o u i)
  rw [scrapeTrace_succ, ht]
  exact List.subset_append_left _ _

theorem scrapeRunFrom_succ (o : Net) (u : Str) (i fuel : Nat) :
    scrapeRunFrom o u i (fuel + 1) =
      (if (if i = 0 then none else some (scrapeTrace o u i).length) =
          some (scrapeTrace o u (i + 1)).length
       then (scrapeTrace o u (i + 1), i + 1)
       else scrapeRunFrom o u (i + 1) fuel) := by
  simp only [scrapeRunFrom, scrapeAux, ← scrapeTrace_succ]
  split <;> simp

theorem scrapeRunFrom_props (o : Net) (u : Str) (fuel : Nat) : ∀ i : Nat,
    i ≤ (scrapeRunFrom o u i fuel).2 ∧
    (scrapeRunFrom o u i fuel).2 ≤ i + fuel ∧
    (scrapeRunFrom o u i fuel).1 = scrapeTrace o u (scrapeRunFrom o u i fuel).2 ∧
    (fuel ≠ 0 → i + 1 ≤ (scrapeRunFrom o u i fuel).2) ∧
    ((scrapeRunFrom o u i fuel).2 < i + fuel →
      1 ≤ (scrapeRunFrom o u i fuel).2 - 1 ∧
      (scrapeTrace o u (scrapeRunFrom o u i fuel).2).length =
        (scrapeTrace o u ((scrapeRunFrom o u i fuel).2 - 1)).length) ∧
    (∀ k, 1 ≤ k → i ≤ k → k + 1 < (scrapeRunFrom o u i fuel).2 →
      (scrapeTrace o u (k + 1)).length ≠ (scrapeTrace o u k).length) := by
  induction fuel with
  | zero =>
    intro i
    have hbase : scrapeRunFrom o u i 0 = (scrapeTrace o u i, i) := by
      simp [scrapeRunFrom, scrapeAux]
    rw [hbase]
    refine ⟨Nat.le_refl i, by omega, rfl, by simp, by omega, ?_⟩
    intro k _ hik hlt
    omega
  | succ fuel ih =>
    intro i
    rw [scrapeRunFrom_succ]
    by_cases hi0 : i = 0
    · subst hi0
      rw [if_pos rfl, if_neg (by simp)]
      obtain ⟨ih1, ih2, ih3, ih4, ih5, ih6⟩ := ih (0 + 1)
      refine ⟨by omega, by omega, ih3, by omega, fun hlt => ih5 (by omega), ?_⟩
      intro k hk1 hik hlt
      exact ih6 k hk1 (by omega) hlt
    · rw [if_neg hi0]
      by_cases hbr : (scrapeTrace o u i).length = (scrapeTrace o u (i + 1)).length
      · rw [if_pos (congrArg some hbr)]
        refine ⟨by omega, by omega, rfl, by omega, ?_, ?_⟩
        · intro _
          exact ⟨by omega, by simpa using hbr.symm⟩
        · intro k _ hik hlt
          omega
      · rw [if_neg (fun h => hbr (by injection h))]
        obtain ⟨ih1, ih2, ih3, ih4, ih5, ih6⟩ := ih (i + 1)
        refine ⟨by omega, by omega, ih3, by omega, fun hlt => ih5 (by omega), ?_⟩
        intro k hk1 hik hlt
        by_cases hki : k = i
        · subst hki
          intro heq
          exact hbr heq.symm
        · exact ih6 k hk1 (by omega) hlt

/-- C4 (amended): the scroll-and-collect loop executes at most 20
iterations; the result is the trace of the executed iterations; the set
only grows; when the loop stops before exhausting the 20 iterations it
has run at least 2 iterations and stopped because the last iteration
added zero new identifiers (so the final set equals the previous one,
and re-running that iteration's collection step leaves the result
unchanged); and no earlier iteration after the first added zero new
identifiers (the first iteration cannot trigger the stability check). -/
theorem scroll_loop_bounded_and_stable (o : Net) (u : Str) :
    (scrape_jobs_from_search_page true o u).2 ≤ 20 ∧
    (scrape_jobs_from_search_page true o u).1 =
      scrapeTrace o u (scrape_jobs_from_search_page true o u).2 ∧
    (∀ i, scrapeTrace o u i ⊆ scrapeTrace o u (i + 1)) ∧
    ((scrape_jobs_from_search_page true o u).2 < 20 →
      2 ≤ (scrape_jobs_from_search_page true o u).2 ∧
      scrapeTrace o u (scrape_jobs_from_search_page true o u).2 =
        scrapeTrace o u ((scrape_jobs_from_search_page true o u).2 - 1) ∧
      scrapeStep u (o.scroll ((scrape_jobs_from_search_page true o u).2 - 1))
        (scrape_jobs_from_search_page true o u).1 =
        (scrape_jobs_from_search_page true o u).1) ∧
    (∀ k, 1 ≤ k → k + 1 < (scrape_jobs_from_search_page true o u).2 →
      scrapeTrace o u (k + 1) ≠ scrapeTrace o u k) := by
  have heq : scrape_jobs_from_search_page true o u = scrapeRunFrom o u 0 20 := rfl
  obtain ⟨h1, h2, h3, h4, h5, h6⟩ := scrapeRunFrom_props o u 20 0
  rw [heq]
  refine ⟨by omega, h3, fun i => scrapeTrace_subset_succ o u i, ?_, ?_⟩
  · intro hlt
    obtain ⟨hn1, hlen⟩ := h5 (by omega)
    have hsucc : (scrapeRunFrom o u 0 20).2 - 1 + 1 = (scrapeRunFrom o u 0 20).2 := by omega
    have htr : scrapeTrace o u ((scrapeRunFrom o u 0 20).2) =
        scrapeStep u (o.scroll ((scrapeRunFrom o u 0 20).2 - 1))
          (scrapeTrace o u ((scrapeRunFrom o u 0 20).2 - 1)) := by
      conv_lhs => rw [← hsucc]
      exact scrapeTrace_succ o u _
    have hset : scrapeTrace o u ((scrapeRunFrom o u 0 20).2) =
        scrapeTrace o u ((scrapeRunFrom o u 0 20).2 - 1) := by
      rw [htr] at hlen ⊢
      exact scrapeStep_eq_of_length_eq hlen
    refine ⟨by omega, hset, ?_⟩
    rw [h3, hset]
    exact htr.symm.trans hset
  · intro k hk1 hlt heq2
    exact h6 k hk1 (by omega) hlt (by rw [heq2])

/-- Counterexample to C4 as stated: on this environment, iteration 0 is
a full iteration that adds zero new posting identifiers, yet the loop
does not stop there — it runs 3 iterations and collects an identifier
discovered on iteration 1.  Stopping at the first zero-add iteration
would have produced the empty set after one iteration. -/
theorem scroll_loop_not_first_zero_add_cex :
    scrapeStep uSearch (oScroll.scroll 0) [] = [] ∧
    (scrape_jobs_from_search_page true oScroll uSearch).2 = 3 ∧
    (scrape_jobs_from_search_page true oScroll uSearch).1 =
      [some (str "https://www.linkedin.com/jobs/view/1")] :=
  ⟨by decide, by decide, by decide⟩

/-- Witness for C4 (amended) on a concrete environment: the loop stops
within the bound and re-running the stabilizing iteration is a no-op. -/
theorem scroll_loop_bounded_and_stable_witness :
    scrapeStep uSearch (oScroll.scroll ((scrape_jobs_from_search_page true oScroll uSearch).2 - 1))
      (scrape_jobs_from_search_page true oScroll uSearch).1 =
      (scrape_jobs_from_search_page true oScroll uSearch).1 ∧
    (scrape_jobs_from_search_page true oScroll uSearch).2 ≤ 20 :=
  ⟨((scroll_loop_bounded_and_stable oScroll uSearch).2.2.2.1 (by decide)).2.2,
   (scroll_loop_bounded_and_stable oScroll uSearch).1⟩

/-! Lemmas about Python `split` (claim C8). -/

theorem isPrefixOf_nil_right {sep : Str} (h : sep ≠ []) : sep.isPrefixOf ([] : Str) = false := by
  cases sep with
  | nil => exact absurd rfl h
  | cons c t => rfl

theorem occurs_lt_length {sep s : Str} {j : Nat} (hsep : sep ≠ [])
    (h : sep.isPrefixOf (s.drop j) = true) : j < s.length := by
  by_contra hle
  rw [List.drop_eq_nil_of_le (by omega)] at h
  rw [isPrefixOf_nil_right hsep] at h
  exact absurd h (by simp)

theorem firstOcc_eq_none_of_no_occ {sep s : Str}
    (h : ∀ j, sep.isPrefixOf (s.drop j) = false) : firstOcc sep s = none := by
  cases hfo : firstOcc sep s with
  | none => rfl
  | some m =>
    obtain ⟨h1, _⟩ := firstOcc_some hfo
    rw [h m] at h1
    exact absurd h1 (by simp)

theorem splitPyF_of_none {sep r : Str} (h : firstOcc sep r = none) (fuel : Nat) :
    splitPyF sep fuel r = [r] := by
  cases fuel with
  | zero => rfl
  | succ f => simp [splitPyF, h]

/-- When `sep` occurs in `s` exactly at position `k`, Python split
yields the two surrounding pieces. -/
theorem splitPy_pair {sep s : Str} {k : Nat} (hsep : sep ≠ [])
    (hocc : sep.isPrefixOf (s.drop k) = true)
    (huniq : ∀ j, sep.isPrefixOf (s.drop j) = true → j = k) :
    splitPy sep s = [s.take k, s.drop (k + sep.length)] := by
  have hfo : firstOcc sep s = some k := by
    obtain ⟨j, hj, hfo⟩ := firstOcc_le_of_occurs hocc
    obtain ⟨h1, _⟩ := firstOcc_some hfo
    rw [huniq j h1] at hfo
    exact hfo
  have hrem : firstOcc sep (s.drop (k + sep.length)) = none := by
    apply firstOcc_eq_none_of_no_occ
    intro j
    by_contra hpos
    have hpos' : sep.isPrefixOf ((s.drop (k + sep.length)).drop j) = true :=
      Bool.not_eq_false _ |>.mp hpos
    rw [List.drop_drop] at hpos'
    have := huniq _ hpos'
    have hlen : sep.length ≠ 0 := fun h => hsep (List.eq_nil_of_length_eq_zero h)
    omega
  have hlen : s.length + 1 ≠ 0 := by omega
  unfold splitPy
  rw [if_neg hsep]
  cases hf : s.length + 1 with
  | zero => omega
  | succ f =>
    simp only [splitPyF, hfo]
    rw [splitPyF_of_none hrem]

/-- Splitting `T ++ sep ++ R` when the only occurrence of `sep` is the
designated one. -/
theorem splitPy_of_unique_boundary {sep T R : Str} (hsep : sep ≠ [])
    (huniq : ∀ j, sep.isPrefixOf ((T ++ sep ++ R).drop j) = true → j = T.length) :
    splitPy sep (T ++ sep ++ R) = [T, R] := by
  have hocc : sep.isPrefixOf ((T ++ sep ++ R).drop T.length) = true := by
    rw [List.append_assoc, List.drop_left]
    exact isPrefixOf_iff_append.mpr ⟨R, rfl⟩
  have h := splitPy_pair hsep hocc huniq
  rw [h]
  congr 1
  · rw [List.append_assoc, List.take_left]
  · congr 1
    have : T.length + sep.length = (T ++ sep).length := (List.length_append T sep).symm
    rw [this, List.drop_left]

/-- The head of a single-character split at the first occurrence. -/
theorem splitPy_head_single {c : Char} {C S : Str} (hC : C.contains c = false) :
    headD (splitPy [c] (C ++ c :: S)) = C := by
  have hocc : [c].isPrefixOf ((C ++ c :: S).drop C.length) = true := by
    rw [List.drop_left]
    exact isPrefixOf_iff_append.mpr ⟨S, rfl⟩
  have hfo : firstOcc [c] (C ++ c :: S) = some C.length := by
    obtain ⟨j, hj, hfo⟩ := firstOcc_le_of_occurs hocc
    obtain ⟨h1, _⟩ := firstOcc_some hfo
    rcases Nat.lt_or_ge j C.length with hlt | hge
    · exfalso
      obtain ⟨t, ht⟩ := isPrefixOf_iff_append.mp h1
      have hget : (C ++ c :: S).drop j = C.drop j ++ c :: S := by
        rw [List.drop_append_of_le_length (Nat.le_of_lt hlt)]
      rw [hget] at ht
      cases hd : C.drop j with
      | nil =>
        have := List.length_drop j C
        rw [hd] at this
        simp at this
        omega
      | cons x xs =>
        rw [hd] at ht
        injection ht with hx _
        have hmem : c ∈ C := by
          have : x ∈ C.drop j := by rw [hd]; exact List.mem_cons_self x xs
          rw [hx] at this
          exact List.mem_of_mem_drop this
        rw [List.contains_eq_any_beq] at hC
        simp at hC
        exact hC c hmem rfl
    · have : j = C.length := Nat.le_antisymm hj hge
      rw [this] at hfo
      exact hfo
  unfold splitPy
  rw [if_neg (by simp)]
  cases hf : (C ++ c :: S).length + 1 with
  | zero => omega
  | succ f =>
    simp only [splitPyF, hfo]
    rw [List.take_left]
    rfl

/-- C8 (amended): when the structured site-name is absent and the title
has the form `<T> at <C>|<S>` where the company segment `C` contains no
`|` and the designated `" at "` is the only occurrence of `" at "` in
the whole title, the extracted company name is `C` with surrounding
whitespace trimmed; a missing title, or metadata and title both absent,
yields `None` (never an exception).  (The code splits at the last
leftmost-scan occurrence of `" at "`, so a source segment containing a
further `" at "` — see the counterexample — escapes the claimed
behaviour, which is why uniqueness of the occurrence is required.) -/
theorem title_company_extraction (T C S : Str)
    (hC : C.contains '|' = false)
    (huniq : ∀ j < (T ++ str " at " ++ (C ++ '|' :: S)).length,
      (str " at ").isPrefixOf ((T ++ str " at " ++ (C ++ '|' :: S)).drop j) = true →
      j = T.length) :
    companyFromOgTitle none (some (T ++ str " at " ++ (C ++ '|' :: S))) = some (pyStrip C) ∧
    companyFromOgTitle none none = none ∧
    companyFromOgTitle none (some []) = none := by
  refine ⟨?_, by decide, by decide⟩
  have hsep : (str " at ") ≠ ([] : Str) := by decide
  have huniq' : ∀ j,
      (str " at ").isPrefixOf ((T ++ str " at " ++ (C ++ '|' :: S)).drop j) = true →
      j = T.length := fun j hj => huniq j (occurs_lt_length hsep hj) hj
  have hsplit := splitPy_of_unique_boundary hsep huniq'
  have hin : inStr (str " at ") (T ++ str " at " ++ (C ++ '|' :: S)) = true :=
    inStr_iff.mpr ⟨T, C ++ '|' :: S, rfl⟩
  show (if inStr (str " at ") (T ++ str " at " ++ (C ++ '|' :: S)) = true
        then some (pyStrip (headD (splitPy (str "|")
          (getLastD (splitPy (str " at ") (T ++ str " at " ++ (C ++ '|' :: S)))))))
        else none) = some (pyStrip C)
  rw [if_pos hin, hsplit]
  have hlast : getLastD [T, C ++ '|' :: S] = C ++ '|' :: S := rfl
  rw [hlast]
  have hbar : (str "|") = ['|'] := rfl
  rw [hbar, splitPy_head_single hC]

/-- Witness for C8 (amended) on a concrete title. -/
theorem title_company_extraction_witness :
    companyFromOgTitle none
      (some (str "Senior Engineer" ++ str " at " ++ (str "Acme " ++ '|' :: str " LinkedIn"))) =
      some (str "Acme") :=
  ((title_company_extraction (str "Senior Engineer") (str "Acme ") (str " LinkedIn")
      (by decide) (by decide)).1).trans (by decide)

/-- Counterexample to C8 as stated: the title
`Engineer at Acme | Life at LinkedIn` has the claimed form with title
part `Engineer`, company segment `Acme ` (free of `" at "` and `|`) and
source `Life at LinkedIn`, yet the extractor returns `LinkedIn` — the
code splits at the last `" at "`, which here lies inside the source
segment — instead of the trimmed company segment `Acme`. -/
theorem title_company_extraction_cex :
    str "Engineer at Acme | Life at LinkedIn" =
      str "Engineer" ++ str " at " ++ (str "Acme " ++ '|' :: str " Life at LinkedIn") ∧
    inStr (str " at ") (str "Acme ") = false ∧
    (str "Acme ").contains '|' = false ∧
    companyFromOgTitle none (some (str "Engineer at Acme | Life at LinkedIn")) =
      some (str "LinkedIn") ∧
    some (str "LinkedIn") ≠ some (pyStrip (str "Acme ")) :=
  ⟨by decide, by decide, by decide, by decide, by decide⟩

/-! Character-predicate propagation through the url machinery
(claims C6 and C9). -/

theorem AllP_sub {P : Char → Prop} {l m : Str} (h : AllP P m) (hsub : l ⊆ m) : AllP P l :=
  fun c hc => h c (hsub hc)

theorem AllP_append {P : Char → Prop} {l m : Str} (hl : AllP P l) (hm : AllP P m) :
    AllP P (l ++ m) := by
  intro c hc
  rcases List.mem_append.mp hc with h | h
  · exact hl c h
  · exact hm c h

theorem AllP_append_iff {P : Char → Prop} {l m : Str} :
    AllP P (l ++ m) ↔ AllP P l ∧ AllP P m := by
  constructor
  · intro h
    exact ⟨AllP_sub h (List.subset_append_left l m), AllP_sub h (List.subset_append_right l m)⟩
  · rintro ⟨hl, hm⟩
    exact AllP_append hl hm

theorem AllP_cons {P : Char → Prop} {c : Char} {l : Str} (hc : P c) (hl : AllP P l) :
    AllP P (c :: l) := by
  intro x hx
  rcases List.mem_cons.mp hx with h | h
  · exact h ▸ hc
  · exact hl x h

theorem AllP_nil {P : Char → Prop} : AllP P [] := fun c hc => absurd hc (List.not_mem_nil c)

theorem AllP_take {P : Char → Prop} {l : Str} (h : AllP P l) (n : Nat) : AllP P (l.take n) :=
  AllP_sub h (List.take_subset n l)

theorem AllP_drop {P : Char → Prop} {l : Str} (h : AllP P l) (n : Nat) : AllP P (l.drop n) :=
  AllP_sub h (List.drop_subset n l)

theorem AllP_takeWhile {P : Char → Prop} {l : Str} (h : AllP P l) (p : Char → Bool) :
    AllP P (l.takeWhile p) := AllP_sub h (List.takeWhile_sublist p).subset

theorem AllP_dropWhile {P : Char → Prop} {l : Str} (h : AllP P l) (p : Char → Bool) :
    AllP P (l.dropWhile p) := AllP_sub h (List.dropWhile_sublist p).subset

theorem AllP_reverse {P : Char → Prop} {l : Str} (h : AllP P l) : AllP P l.reverse :=
  fun c hc => h c (List.mem_reverse.mp hc)

theorem AllP_filter {P : Char → Prop} {l : Str} (h : AllP P l) (p : Char → Bool) :
    AllP P (l.filter p) := AllP_sub h (List.filter_subset' l)

theorem AllP_pyStrip {P : Char → Prop} {l : Str} (h : AllP P l) : AllP P (pyStrip l) := by
  unfold pyStrip
  exact AllP_reverse (AllP_dropWhile (AllP_reverse (AllP_dropWhile h _)) _)

theorem AllP_stripC0 {P : Char → Prop} {l : Str} (h : AllP P l) : AllP P (stripC0 l) := by
  unfold stripC0
  exact AllP_reverse (AllP_dropWhile (AllP_reverse (AllP_dropWhile h _)) _)

theorem AllP_removeUnsafe {P : Char → Prop} {l : Str} (h : AllP P l) :
    AllP P (removeUnsafeBytes l) := AllP_filter h _

theorem AllP_before1 {P : Char → Prop} {l : Str} (h : AllP P l) (c : Char) :
    AllP P (before1 c l) := AllP_takeWhile h _

theorem AllP_after1 {P : Char → Prop} {l : Str} (h : AllP P l) (c : Char) :
    AllP P (after1 c l) := AllP_drop (AllP_dropWhile h _) 1

/-- The components of `splitScheme` satisfy `P` when the inputs do,
provided `P` holds of lower-cased scheme characters. -/
theorem splitScheme_AllP {P : Char → Prop} {u d : Str}
    (hu : AllP P u) (hd : AllP P d)
    (hsch : ∀ c, c ∈ schemeChars → P (Char.toLower c)) :
    AllP P (splitScheme u d).1 ∧ AllP P (splitScheme u d).2 := by
  unfold splitScheme
  cases hfo : firstOcc [':'] u with
  | none => exact ⟨hd, hu⟩
  | some i =>
    dsimp only
    by_cases hcond : 0 < i ∧ (u.headD ' ').toNat < 128 ∧ (u.headD ' ').isAlpha = true ∧
        ((u.take i).all fun c => schemeChars.contains c) = true
    · rw [if_pos hcond]
      refine ⟨?_, AllP_drop hu _⟩
      intro c hc
      simp only [pyLower, List.mem_map] at hc
      obtain ⟨x, hx, hxl⟩ := hc
      have hxs : schemeChars.contains x = true := by
        have hall := hcond.2.2.2
        rw [List.all_eq_true] at hall
        exact hall x hx
      rw [List.contains_eq_any_beq] at hxs
      simp only [List.any_eq_true, beq_iff_eq] at hxs
      obtain ⟨y, hy, hyx⟩ := hxs
      rw [← hxl, hyx]
      exact hsch y hy
    · rw [if_neg hcond]
      exact ⟨hd, hu⟩

theorem splitNetloc_AllP {P : Char → Prop} {r : Str} (hr : AllP P r) :
    AllP P (splitNetloc r).1 ∧ AllP P (splitNetloc r).2 := by
  unfold splitNetloc
  split
  · exact ⟨AllP_takeWhile (AllP_drop hr _) _, AllP_dropWhile (AllP_drop hr _) _⟩
  · exact ⟨AllP_nil, hr⟩

theorem splitFragment_AllP {P : Char → Prop} {r : Str} (hr : AllP P r) :
    AllP P (splitFragment r).1 ∧ AllP P (splitFragment r).2 := by
  unfold splitFragment
  split
  · exact ⟨AllP_before1 hr _, AllP_after1 hr _⟩
  · exact ⟨hr, AllP_nil⟩

theorem splitQuery_AllP {P : Char → Prop} {r : Str} (hr : AllP P r) :
    AllP P (splitQuery r).1 ∧ AllP P (splitQuery r).2 := by
  unfold splitQuery
  split
  · exact ⟨AllP_before1 hr _, AllP_after1 hr _⟩
  · exact ⟨hr, AllP_nil⟩

/-- All components of `urlsplitM` satisfy `P` when the inputs do and
`P` holds of lower-cased scheme characters. -/
theorem urlsplitM_AllP {P : Char → Prop} {u d : Str}
    (hu : AllP P u) (hd : AllP P d)
    (hsch : ∀ c, c ∈ schemeChars → P (Char.toLower c)) :
    AllP P (urlsplitM u d).scheme ∧ AllP P (urlsplitM u d).netloc ∧
    AllP P (urlsplitM u d).path ∧ AllP P (urlsplitM u d).query ∧
    AllP P (urlsplitM u d).fragment := by
  have hu1 : AllP P (removeUnsafeBytes (u.dropWhile isC0OrSpace)) :=
    AllP_removeUnsafe (AllP_dropWhile hu _)
  have hd1 : AllP P (removeUnsafeBytes (stripC0 d)) :=
    AllP_removeUnsafe (AllP_stripC0 hd)
  obtain ⟨hs1, hs2⟩ := splitScheme_AllP hu1 hd1 hsch
  obtain ⟨hn1, hn2⟩ := splitNetloc_AllP hs2
  obtain ⟨hf1, hf2⟩ := splitFragment_AllP hn2
  obtain ⟨hq1, hq2⟩ := splitQuery_AllP hf1
  exact ⟨hs1, hn1, hq1, hq2, hf2⟩

theorem splitparamsM_AllP {P : Char → Prop} {u : Str} (hu : AllP P u) :
    AllP P (splitparamsM u).1 ∧ AllP P (splitparamsM u).2 := by
  unfold splitparamsM
  split
  · cases hr : rfindChar '/' u with
    | none => exact ⟨hu, AllP_nil⟩
    | some j =>
      dsimp only
      cases hk : firstOcc [';'] (u.drop j) with
      | none => exact ⟨hu, AllP_nil⟩
      | some k =>
        dsimp only
        exact ⟨AllP_take hu _, AllP_drop hu _⟩
  · cases hi : firstOcc [';'] u with
    | none => exact ⟨hu, AllP_nil⟩
    | some i =>
      dsimp only
      exact ⟨AllP_take hu _, AllP_drop hu _⟩

/-- All components of `urlparseM` satisfy `P` under the same
hypotheses. -/
theorem urlparseM_AllP {P : Char → Prop} {u d : Str}
    (hu : AllP P u) (hd : AllP P d)
    (hsch : ∀ c, c ∈ schemeChars → P (Char.toLower c)) :
    AllP P (urlparseM u d).scheme ∧ AllP P (urlparseM u d).netloc ∧
    AllP P (urlparseM u d).path ∧ AllP P (urlparseM u d).params ∧
    AllP P (urlparseM u d).query ∧ AllP P (urlparseM u d).fragment := by
  obtain ⟨h1, h2, h3, h4, h5⟩ := urlsplitM_AllP hu hd hsch
  simp only [urlparseM]
  split
  · obtain ⟨hp1, hp2⟩ := splitparamsM_AllP h3
    exact ⟨h1, h2, hp1, hp2, h4, h5⟩
  · exact ⟨h1, h2, h3, AllP_nil, h4, h5⟩

theorem AllP_hasChar_false {c : Char} {l : Str} (h : AllP (· ≠ c) l) : hasChar c l = false := by
  unfold hasChar
  rw [List.contains_eq_any_beq]
  rw [Bool.eq_false_iff]
  intro hany
  rw [List.any_eq_true] at hany
  obtain ⟨x, hx, hbx⟩ := hany
  rw [beq_iff_eq] at hbx
  exact absurd hbx.symm (h x hx)

theorem urlparseM_query_eq (u d : Str) : (urlparseM u d).query = (urlsplitM u d).query := by
  simp only [urlparseM]
  split <;> rfl

theorem urlsplitM_query_nil {u d : Str}
    (hu : AllP (· ≠ '?') u) (hd : AllP (· ≠ '?') d) :
    (urlsplitM u d).query = [] := by
  have hu1 : AllP (· ≠ '?') (removeUnsafeBytes (u.dropWhile isC0OrSpace)) :=
    AllP_removeUnsafe (AllP_dropWhile hu _)
  have hd1 : AllP (· ≠ '?') (removeUnsafeBytes (stripC0 d)) :=
    AllP_removeUnsafe (AllP_stripC0 hd)
  have hsch : ∀ c, c ∈ schemeChars → (Char.toLower c) ≠ '?' := by decide
  obtain ⟨hs1, hs2⟩ := splitScheme_AllP hu1 hd1 hsch
  obtain ⟨hn1, hn2⟩ := splitNetloc_AllP hs2
  obtain ⟨hf1, hf2⟩ := splitFragment_AllP hn2
  show (splitQuery (splitFragment (splitNetloc
    (splitScheme (removeUnsafeBytes (u.dropWhile isC0OrSpace))
      (removeUnsafeBytes (stripC0 d))).2).2).1).2 = []
  unfold splitQuery
  rw [if_neg (by rw [AllP_hasChar_false hf1]; simp)]

theorem urlparseM_query_nil {u d : Str}
    (hu : AllP (· ≠ '?') u) (hd : AllP (· ≠ '?') d) :
    (urlparseM u d).query = [] := by
  rw [urlparseM_query_eq]
  exact urlsplitM_query_nil hu hd

theorem urlunsplitM_no_q {scheme netloc url fragment : Str}
    (hs : AllP (· ≠ '?') scheme) (hn : AllP (· ≠ '?') netloc)
    (hu : AllP (· ≠ '?') url) (hf : AllP (· ≠ '?') fragment) :
    AllP (· ≠ '?') (urlunsplitM scheme netloc url [] fragment) := by
  unfold urlunsplitM
  have hslash : AllP (· ≠ '?') (str "//") := by decide
  have hpi : AllP (· ≠ '?') (pInsert url) := by
    unfold pInsert
    split
    · exact AllP_cons (by decide) hu
    · exact hu
  have h1 : AllP (· ≠ '?')
      (if netloc ≠ [] ∨ (url ≠ [] ∧ url.take 2 = str "//") then
        str "//" ++ netloc ++ pInsert url
      else url) := by
    split
    · exact AllP_append (AllP_append hslash hn) hpi
    · exact hu
  have h2 : AllP (· ≠ '?')
      (if scheme ≠ [] then scheme ++ ':' :: (if netloc ≠ [] ∨ (url ≠ [] ∧ url.take 2 = str "//") then
        str "//" ++ netloc ++ pInsert url
      else url) else (if netloc ≠ [] ∨ (url ≠ [] ∧ url.take 2 = str "//") then
        str "//" ++ netloc ++ pInsert url
      else url)) := by
    split
    · exact AllP_append hs (AllP_cons (by decide) h1)
    · exact h1
  simp only [ne_eq, not_true_eq_false, if_false, reduceIte]
  split
  · exact AllP_append h2 (AllP_cons (by decide) hf)
  · exact h2

theorem urlunparseM_no_q {p : UrlParts} (hq : p.query = [])
    (hs : AllP (· ≠ '?') p.scheme) (hn : AllP (· ≠ '?') p.netloc)
    (hp : AllP (· ≠ '?') p.path) (hpar : AllP (· ≠ '?') p.params)
    (hf : AllP (· ≠ '?') p.fragment) :
    AllP (· ≠ '?') (urlunparseM p) := by
  unfold urlunparseM
  rw [hq]
  have hu : AllP (· ≠ '?') (if p.params ≠ [] then p.path ++ ';' :: p.params else p.path) := by
    split
    · exact AllP_append hp (AllP_cons (by decide) hpar)
    · exact hp
  exact urlunsplitM_no_q hs hn hu hf

theorem splitPyF_mem_AllP {P : Char → Prop} {sep : Str} (fuel : Nat) :
    ∀ {s x : Str}, AllP P s → x ∈ splitPyF sep fuel s → AllP P x := by
  induction fuel with
  | zero =>
    intro s x hs hx
    simp only [splitPyF, List.mem_singleton] at hx
    exact hx ▸ hs
  | succ f ih =>
    intro s x hs hx
    simp only [splitPyF] at hx
    cases hfo : firstOcc sep s with
    | none =>
      rw [hfo] at hx
      simp only [List.mem_singleton] at hx
      exact hx ▸ hs
    | some i =>
      rw [hfo] at hx
      rcases List.mem_cons.mp hx with h | h
      · exact h ▸ AllP_take hs i
      · exact ih (AllP_drop hs _) h

theorem splitPy_mem_AllP {P : Char → Prop} {sep s x : Str}
    (hs : AllP P s) (hx : x ∈ splitPy sep s) : AllP P x := by
  unfold splitPy at hx
  split at hx
  · simp only [List.mem_singleton] at hx
    exact hx ▸ hs
  · exact splitPyF_mem_AllP _ hs hx

theorem joinSep_AllP {P : Char → Prop} {sep : Str} (hsep : AllP P sep) :
    ∀ {L : List Str}, (∀ x ∈ L, AllP P x) → AllP P (joinSep sep L)
  | [], _ => AllP_nil
  | [x], h => by
    simpa [joinSep] using h x (List.mem_singleton_self x)
  | x :: y :: xs, h => by
    show AllP P (x ++ sep ++ joinSep sep (y :: xs))
    refine AllP_append (AllP_append (h x (by simp)) hsep) ?_
    exact joinSep_AllP hsep (fun z hz => h z (List.mem_cons_of_mem x hz))

theorem resolveSegs_mem {segs : List Str} {x : Str} (hx : x ∈ resolveSegs segs) : x ∈ segs := by
  unfold resolveSegs at hx
  suffices h : ∀ acc, x ∈ List.foldl
      (fun acc seg => if seg = str ".." then acc.dropLast
        else if seg = str "." then acc else acc ++ [seg]) acc segs → x ∈ acc ∨ x ∈ segs by
    rcases h [] hx with h1 | h1
    · exact absurd h1 (List.not_mem_nil x)
    · exact h1
  clear hx
  induction segs with
  | nil => intro acc hx; exact Or.inl hx
  | cons s t ih =>
    intro acc hx
    simp only [List.foldl_cons] at hx
    rcases ih _ hx with h1 | h1
    · split at h1
      · exact Or.inl (List.dropLast_subset acc h1)
      · split at h1
        · exact Or.inl h1
        · rcases List.mem_append.mp h1 with h2 | h2
          · exact Or.inl h2
          · simp only [List.mem_singleton] at h2
            exact Or.inr (h2 ▸ List.mem_cons_self s t)
    · exact Or.inr (List.mem_cons_of_mem s h1)

theorem filterMiddle_mem {L : List Str} {x : Str} (hx : x ∈ filterMiddle L) :
    x ∈ L ∨ x = [] := by
  unfold filterMiddle at hx
  match L, hx with
  | [], hx => exact absurd hx (List.not_mem_nil x)
  | [y], hx => exact Or.inl hx
  | y :: z :: zs, hx =>
    rcases List.mem_cons.mp hx with h | h
    · exact Or.inl (h ▸ List.mem_cons_self y _)
    · rcases List.mem_append.mp h with h1 | h1
      · have := List.mem_of_mem_filter h1
        exact Or.inl (List.mem_cons_of_mem y (List.dropLast_subset _ this))
      · simp only [List.mem_singleton] at h1
        subst h1
        rcases List.mem_cons.mp (List.getLastD_mem_cons (z :: zs) []) with hm | hm
        · exact Or.inr hm
        · exact Or.inl (List.mem_cons_of_mem y hm)

/-- The piece of a Python split before the first (single-character)
separator never contains the separator. -/
theorem splitPy_headD_single_AllP (c : Char) (s : Str) :
    AllP (· ≠ c) (headD (splitPy [c] s)) := by
  have hocc : ∀ (l1 l2 : Str), [c].isPrefixOf ((l1 ++ c :: l2).drop l1.length) = true := by
    intro l1 l2
    rw [List.drop_left]
    exact isPrefixOf_iff_append.mpr ⟨l2, rfl⟩
  unfold splitPy
  rw [if_neg (by simp)]
  show AllP (· ≠ c) (headD (splitPyF [c] (s.length + 1) s))
  simp only [splitPyF]
  cases hfo : firstOcc [c] s with
  | none =>
    intro x hx hxc
    subst hxc
    have hx2 : x ∈ s := hx
    obtain ⟨l1, l2, rfl⟩ := List.append_of_mem hx2
    have h1 := firstOcc_none hfo l1.length
    rw [hocc l1 l2] at h1
    exact absurd h1 (by simp)
  | some i =>
    intro x hx hxc
    subst hxc
    obtain ⟨h1, h2⟩ := firstOcc_some hfo
    have hx2 : x ∈ s.take i := hx
    obtain ⟨l1, l2, hsp⟩ := List.append_of_mem hx2
    have hilt : i < s.length := occurs_lt_length (by simp) h1
    have hlen1 : (s.take i).length = i := by rw [List.length_take]; omega
    have hlen2 : (s.take i).length = l1.length + (l2.length + 1) := by rw [hsp]; simp
    have hl1 : l1.length < i := by omega
    have hs2 : s = l1 ++ x :: (l2 ++ s.drop i) := by
      conv_lhs => rw [← List.take_append_drop i s, hsp]
      simp
    have hpre : [x].isPrefixOf (s.drop l1.length) = true := by
      conv_lhs => rw [hs2]
      exact hocc l1 (l2 ++ s.drop i)
    have hcontra := h2 l1.length hl1
    rw [hpre] at hcontra
    exact absurd hcontra (by simp)

/-- The head of a Python split on `?` contains no `?`. -/
theorem splitPy_headD_q_AllP (s : Str) :
    AllP (· ≠ '?') (headD (splitPy (str "?") s)) := by
  have he : str "?" = ['?'] := rfl
  rw [he]
  exact splitPy_headD_single_AllP '?' s

/-- Members of the segment list in the `urljoin` resolution branch come
from splitting the base path or the relative path on `/`, or are empty. -/
theorem urljoin_segments_AllP {P : Char → Prop} {bp up x : Str}
    (hbp : AllP P bp) (hup : AllP P up)
    (hx : x ∈ (if up.take 1 = ['/'] then splitPy (str "/") up
      else filterMiddle
        ((if (splitPy (str "/") bp).getLastD [] ≠ [] then (splitPy (str "/") bp).dropLast
          else splitPy (str "/") bp) ++ splitPy (str "/") up))) :
    AllP P x := by
  split at hx
  · exact splitPy_mem_AllP hup hx
  · rcases filterMiddle_mem hx with h1 | h1
    · rcases List.mem_append.mp h1 with h2 | h2
      · have hx2 : x ∈ splitPy (str "/") bp := by
          revert h2
          split
          · exact fun h2 => List.dropLast_subset _ h2
          · exact fun h2 => h2
        exact splitPy_mem_AllP hbp hx2
      · exact splitPy_mem_AllP hup h2
    · rw [h1]
      exact AllP_nil

/-- Helper: a `/`-joined list whose members all satisfy `P`, with the
empty-path fallback to `/`. -/
theorem joined_list_AllP {P : Char → Prop} {R : List Str}
    (hsl : AllP P (str "/")) (hR : ∀ x ∈ R, AllP P x) :
    AllP P (if joinSep (str "/") R = [] then str "/" else joinSep (str "/") R) := by
  split
  · exact hsl
  · exact joinSep_AllP hsl hR

/-- The path assembled by the `urljoin` resolution branch satisfies `P`
when every segment does and so does `/`. -/
theorem joined_resolved_AllP {P : Char → Prop} {segments : List Str}
    (hsl : AllP P (str "/"))
    (hseg : ∀ x ∈ segments, AllP P x) :
    AllP P (if joinSep (str "/")
        (if segments.getLastD [] = str ".." ∨ segments.getLastD [] = str "." then
          resolveSegs segments ++ [[]] else resolveSegs segments) = []
      then str "/"
      else joinSep (str "/")
        (if segments.getLastD [] = str ".." ∨ segments.getLastD [] = str "." then
          resolveSegs segments ++ [[]] else resolveSegs segments)) := by
  have hres : ∀ x ∈ (if segments.getLastD [] = str ".." ∨ segments.getLastD [] = str "." then
      resolveSegs segments ++ [[]] else resolveSegs segments), AllP P x := by
    intro x hx
    revert hx
    split
    · intro hx
      rcases List.mem_append.mp hx with h1 | h1
      · exact hseg x (resolveSegs_mem h1)
      · rw [List.mem_singleton.mp h1]
        exact AllP_nil
    · intro hx
      exact hseg x (resolveSegs_mem hx)
  exact joined_list_AllP hsl hres

/-- Every character of the resolved path satisfies `P` when the base
path, the relative path and `/` do. -/
theorem resolvedPath_AllP {P : Char → Prop} {bp up : Str}
    (hsl : AllP P (str "/")) (hbp : AllP P bp) (hup : AllP P up) :
    AllP P (resolvedPath bp up) := by
  simp only [resolvedPath]
  exact joined_resolved_AllP hsl (fun x hx => urljoin_segments_AllP hbp hup hx)

/-- The path-resolution branch of `urljoin` produces no `?` when its
inputs contain none and the relative query is empty. -/
theorem urljoinResolve_no_q {bpath : Str} {u : UrlParts} {netloc : Str}
    (hq : u.query = [])
    (hbp : AllP (· ≠ '?') bpath) (hs : AllP (· ≠ '?') u.scheme)
    (hn : AllP (· ≠ '?') netloc) (hp : AllP (· ≠ '?') u.path)
    (hpar : AllP (· ≠ '?') u.params) (hf : AllP (· ≠ '?') u.fragment) :
    AllP (· ≠ '?') (urljoinResolve bpath u netloc) := by
  have hsl : AllP (· ≠ '?') (str "/") := by decide
  simp only [urljoinResolve]
  exact urlunparseM_no_q hq hs hn (resolvedPath_AllP hsl hbp hp) hpar hf

set_option maxHeartbeats 1600000 in
/-- The output of `urljoin` contains no `?` when neither input does: the
query component is empty in every branch, so `urlunsplit` inserts no `?`. -/
theorem urljoinM_no_q {base h : Str}
    (hb : AllP (· ≠ '?') base) (hh : AllP (· ≠ '?') h) :
    AllP (· ≠ '?') (urljoinM base h) := by
  have hsch : ∀ c, c ∈ schemeChars → (Char.toLower c) ≠ '?' := by decide
  have hslash : AllP (· ≠ '?') (str "/") := by decide
  obtain ⟨hb1, hb2, hb3, hb4, hb5, hb6⟩ := urlparseM_AllP hb AllP_nil hsch
  obtain ⟨hu1, hu2, hu3, hu4, hu5, hu6⟩ := urlparseM_AllP hh hb1 hsch
  have hbq : (urlparseM base []).query = [] := urlparseM_query_nil hb AllP_nil
  have huq : (urlparseM h (urlparseM base []).scheme).query = [] :=
    urlparseM_query_nil hh hb1
  have hnet : AllP (· ≠ '?')
      (if (urlparseM h (urlparseM base []).scheme).scheme ∈ usesNetloc
       then (urlparseM base []).netloc
       else (urlparseM h (urlparseM base []).scheme).netloc) := by
    split
    · exact hb2
    · exact hu2
  simp only [urljoinM]
  by_cases c1 : base = []
  · rw [if_pos c1]
    exact hh
  rw [if_neg c1]
  by_cases c2 : h = []
  · rw [if_pos c2]
    exact hb
  rw [if_neg c2]
  by_cases c3 : (urlparseM h (urlparseM base []).scheme).scheme ≠ (urlparseM base []).scheme ∨
      (urlparseM h (urlparseM base []).scheme).scheme ∉ usesRelative
  · rw [if_pos c3]
    exact hh
  rw [if_neg c3]
  by_cases c4 : (urlparseM h (urlparseM base []).scheme).scheme ∈ usesNetloc ∧
      (urlparseM h (urlparseM base []).scheme).netloc ≠ []
  · rw [if_pos c4]
    exact urlunparseM_no_q huq hu1 hu2 hu3 hu4 hu6
  rw [if_neg c4]
  by_cases c5 : (urlparseM h (urlparseM base []).scheme).path = [] ∧
      (urlparseM h (urlparseM base []).scheme).params = []
  · rw [if_pos c5, huq, if_pos rfl]
    exact urlunparseM_no_q hbq hu1 hnet hb3 hb4 hu6
  · rw [if_neg c5]
    exact urljoinResolve_no_q huq hb3 hu1 hnet hu3 hu4 hu6

/-- A normalized identifier contains no `?` when neither the base URL
nor the href does. -/
theorem normalize_url_no_q {base hr v : Str}
    (hb : AllP (· ≠ '?') base) (hh : AllP (· ≠ '?') hr)
    (hv : normalize_url base (some hr) = some v) :
    AllP (· ≠ '?') v := by
  have hsch : ∀ c, c ∈ schemeChars → (Char.toLower c) ≠ '?' := by decide
  obtain ⟨hb1, h2, h3, h4, h5, h6⟩ := urlparseM_AllP hb AllP_nil hsch
  simp only [normalize_url] at hv
  split at hv
  · exact absurd hv (by simp)
  split at hv
  · exact absurd hv (by simp)
  split at hv
  · injection hv with hv
    rw [← hv]
    refine AllP_append ?_ (AllP_cons (by decide) (AllP_pyStrip hh))
    split
    · decide
    · exact hb1
  · injection hv with hv
    rw [← hv]
    exact urljoinM_no_q hb (AllP_pyStrip hh)

theorem mem_setInsert_self (x : Option Str) (s : List (Option Str)) : x ∈ setInsert x s := by
  unfold setInsert
  split
  · assumption
  · exact List.mem_append.mpr (Or.inr (List.mem_singleton_self x))

theorem setInsert_idem (x : Option Str) (s : List (Option Str)) :
    setInsert x (setInsert x s) = setInsert x s := by
  show (if x ∈ setInsert x s then setInsert x s else setInsert x s ++ [x]) = setInsert x s
  rw [if_pos (mem_setInsert_self x s)]

theorem setInsert_mem {x y : Option Str} {s : List (Option Str)}
    (h : x ∈ setInsert y s) : x ∈ s ∨ x = y := by
  unfold setInsert at h
  split at h
  · exact Or.inl h
  · rcases List.mem_append.mp h with h1 | h1
    · exact Or.inl h1
    · exact Or.inr (List.mem_singleton.mp h1)

/-- Every element of a `scrapeStep` output is either carried over or the
normalization of the query-stripped head of some processed href. -/
theorem scrapeStep_mem {u : Str} {x : Option Str} {hrefs : List Str} :
    ∀ {s : List (Option Str)}, x ∈ scrapeStep u hrefs s →
      x ∈ s ∨ ∃ h, h ∈ hrefs ∧ x = normalize_url u (some (headD (splitPy (str "?") h))) := by
  induction hrefs with
  | nil => exact fun hx => Or.inl hx
  | cons h t ih =>
    intro s hx
    have hx2 : x ∈ scrapeStep u t (if inStr (str "/jobs/view/") h then
        setInsert (normalize_url u (some (headD (splitPy (str "?") h)))) s else s) := hx
    rcases ih hx2 with h1 | ⟨g, hg, hge⟩
    · revert h1
      split
      · intro h1
        rcases setInsert_mem h1 with h2 | h2
        · exact Or.inl h2
        · exact Or.inr ⟨h, List.mem_cons_self h t, h2⟩
      · exact fun h1 => Or.inl h1
    · exact Or.inr ⟨g, List.mem_cons_of_mem h hg, hge⟩

/-- Every element of the scroll loop's final set is carried over from
the initial set or arises from some scrolled-to href. -/
theorem scrapeAux_mem {o : Net} {u : Str} {x : Option Str} :
    ∀ {fuel i : Nat} {s : List (Option Str)} {prev : Option Nat},
      x ∈ (scrapeAux o u i fuel s prev).1 →
      x ∈ s ∨ ∃ h j, h ∈ o.scroll j ∧
        x = normalize_url u (some (headD (splitPy (str "?") h))) := by
  intro fuel
  induction fuel with
  | zero => exact fun hx => Or.inl hx
  | succ f ih =>
    intro i s prev hx
    simp only [scrapeAux] at hx
    by_cases hp : prev = some (scrapeStep u (o.scroll i) s).length
    · rw [if_pos hp] at hx
      rcases scrapeStep_mem hx with h1 | ⟨g, hg, hge⟩
      · exact Or.inl h1
      · exact Or.inr ⟨g, i, hg, hge⟩
    · rw [if_neg hp] at hx
      rcases ih hx with h1 | h1
      · rcases scrapeStep_mem h1 with h2 | ⟨g, hg, hge⟩
        · exact Or.inl h2
        · exact Or.inr ⟨g, i, hg, hge⟩
      · exact Or.inr h1

/-- Every collected posting identifier is the normalization of the
query-stripped head of some href seen while scrolling. -/
theorem scrape_mem {avail : Bool} {o : Net} {u : Str} {x : Option Str}
    (hx : x ∈ (scrape_jobs_from_search_page avail o u).1) :
    ∃ h j, h ∈ o.scroll j ∧
      x = normalize_url u (some (headD (splitPy (str "?") h))) := by
  unfold scrape_jobs_from_search_page at hx
  split at hx
  · exact absurd hx (List.not_mem_nil x)
  · rcases scrapeAux_mem hx with h1 | h1
    · exact absurd h1 (List.not_mem_nil x)
    · exact h1

/-- C6 (amended): posting identifiers are deduplicated by the exact
normalized URL of the href with the href's own query string stripped —
two posting links that differ only in their query strings contribute at
most one identifier — and, provided the listing URL itself contains no
`?`, no collected identifier contains a query string.  (The
query-freedom half of the claim as stated, without that proviso, is
refuted: the href is stripped of its query before normalization, but
`urljoin` can re-attach the listing URL's own query string.) -/
theorem joburlset_dedup_queryfree (o : Net) (u : Str) (hu : AllP (· ≠ '?') u) :
    (∀ (h1 h2 : Str) (s : List (Option Str)),
        headD (splitPy (str "?") h1) = headD (splitPy (str "?") h2) →
        inStr (str "/jobs/view/") h1 = true →
        inStr (str "/jobs/view/") h2 = true →
        scrapeStep u [h1, h2] s = scrapeStep u [h1] s) ∧
    (∀ (avail : Bool) (x : Option Str),
        x ∈ (scrape_jobs_from_search_page avail o u).1 →
        ∀ v : Str, x = some v → hasChar '?' v = false) := by
  constructor
  · intro h1 h2 s hhead hin1 hin2
    have e1 : scrapeStep u [h1] s =
        setInsert (normalize_url u (some (headD (splitPy (str "?") h1)))) s := by
      unfold scrapeStep
      simp only [List.foldl_cons, List.foldl_nil]
      rw [if_pos hin1]
    have e2 : scrapeStep u [h1, h2] s =
        setInsert (normalize_url u (some (headD (splitPy (str "?") h2))))
          (setInsert (normalize_url u (some (headD (splitPy (str "?") h1)))) s) := by
      unfold scrapeStep
      simp only [List.foldl_cons, List.foldl_nil]
      rw [if_pos hin2, if_pos hin1]
    rw [e2, e1, ← hhead, setInsert_idem]
  · intro avail x hx v hv
    obtain ⟨g, j, hg, hxe⟩ := scrape_mem hx
    rw [hv] at hxe
    exact AllP_hasChar_false (normalize_url_no_q hu (splitPy_headD_q_AllP g) hxe.symm)

theorem joburlset_dedup_queryfree_witness :
    AllP (· ≠ '?') (str "https://www.linkedin.com/jobs/search") ∧
    ((∀ (h1 h2 : Str) (s : List (Option Str)),
        headD (splitPy (str "?") h1) = headD (splitPy (str "?") h2) →
        inStr (str "/jobs/view/") h1 = true →
        inStr (str "/jobs/view/") h2 = true →
        scrapeStep (str "https://www.linkedin.com/jobs/search") [h1, h2] s =
          scrapeStep (str "https://www.linkedin.com/jobs/search") [h1] s) ∧
      (∀ (avail : Bool) (x : Option Str),
        x ∈ (scrape_jobs_from_search_page avail oScroll
              (str "https://www.linkedin.com/jobs/search")).1 →
        ∀ v : Str, x = some v → hasChar '?' v = false)) :=
  ⟨by decide,
   joburlset_dedup_queryfree oScroll (str "https://www.linkedin.com/jobs/search") (by decide)⟩

set_option maxHeartbeats 1600000 in
/-- Counterexample to C6 as stated: running the scroll-loop body on the
query-bearing listing URL `https://www.linkedin.com/jobs/search?keywords=x`
with the posting href `https:?q=/jobs/view/1` collects the listing URL
itself — query string included — because the query-stripped href
`https:` joins to the base through the empty-path branch of `urljoin`,
which inherits the base's query string. -/
theorem joburlset_queryfree_cex :
    scrapeStep uSearch [str "https:?q=/jobs/view/1"] [] = [some uSearch] ∧
    hasChar '?' uSearch = true := by
  constructor
  · decide
  · decide

/-! Idempotence kit for C9: character classes and strip identities. -/

theorem isPySpace_le {c : Char} (h : isPySpace c = true) : c.toNat ≤ 32 := by
  unfold isPySpace at h
  simp only [Bool.or_eq_true, decide_eq_true_eq] at h
  rcases h with ((((h | h) | h) | h) | h) | h <;> subst h <;> decide

theorem isUnsafeUrlByte_le {c : Char} (h : isUnsafeUrlByte c = true) : c.toNat ≤ 32 := by
  unfold isUnsafeUrlByte at h
  simp only [Bool.or_eq_true, decide_eq_true_eq] at h
  rcases h with (h | h) | h <;> subst h <;> decide

theorem cleanChar_gt32 {c : Char} (h : cleanChar c = true) : 32 < c.toNat := by
  unfold cleanChar at h
  simp only [Bool.and_eq_true, decide_eq_true_eq] at h
  exact h.1.1.1

theorem clean_not_pyspace {c : Char} (h : cleanChar c = true) : isPySpace c = false := by
  rw [Bool.eq_false_iff]
  intro ht
  have h1 := isPySpace_le ht
  have h2 := cleanChar_gt32 h
  omega

theorem clean_not_urlbyte {c : Char} (h : cleanChar c = true) : isUnsafeUrlByte c = false := by
  rw [Bool.eq_false_iff]
  intro ht
  have h1 := isUnsafeUrlByte_le ht
  have h2 := cleanChar_gt32 h
  omega

theorem clean_not_c0 {c : Char} (h : cleanChar c = true) : isC0OrSpace c = false := by
  have h2 := cleanChar_gt32 h
  unfold isC0OrSpace
  simp only [decide_eq_false_iff_not]
  omega

theorem plainChar_clean {c : Char} (h : plainChar c = true) : cleanChar c = true := by
  unfold plainChar at h
  simp only [Bool.and_eq_true] at h
  exact h.1.1.1

theorem plainChar_props {c : Char} (h : plainChar c = true) :
    c ≠ '?' ∧ c ≠ '#' ∧ c ≠ ';' := by
  unfold plainChar at h
  simp only [Bool.and_eq_true, Bool.not_eq_true', beq_eq_false_iff_ne, ne_eq] at h
  exact ⟨h.1.1.2, h.1.2, h.2⟩

theorem dropWhile_eq_self_of_all {p : Char → Bool} {s : Str}
    (h : ∀ c, c ∈ s → p c = false) : s.dropWhile p = s := by
  cases s with
  | nil => rfl
  | cons a t =>
    rw [List.dropWhile_cons_of_neg]
    simp [h a (List.mem_cons_self a t)]

theorem pyStrip_eq_of_clean {s : Str}
    (h : AllP (fun c => cleanChar c = true) s) : pyStrip s = s := by
  unfold pyStrip
  rw [dropWhile_eq_self_of_all (fun c hc => clean_not_pyspace (h c hc))]
  rw [dropWhile_eq_self_of_all
    (fun c hc => clean_not_pyspace (h c (List.mem_reverse.mp hc)))]
  exact List.reverse_reverse s

theorem removeUnsafeBytes_eq_of_clean {s : Str}
    (h : AllP (fun c => cleanChar c = true) s) : removeUnsafeBytes s = s := by
  unfold removeUnsafeBytes
  refine List.filter_eq_self.mpr ?_
  intro c hc
  simp [clean_not_urlbyte (h c hc)]

theorem dropC0_eq_of_clean {s : Str}
    (h : AllP (fun c => cleanChar c = true) s) : s.dropWhile isC0OrSpace = s :=
  dropWhile_eq_self_of_all (fun c hc => clean_not_c0 (h c hc))

theorem all_to_AllP {p : Char → Bool} {s : Str} (h : s.all p = true) :
    AllP (fun c => p c = true) s := by
  intro c hc
  exact List.all_eq_true.mp h c hc

/-! Idempotence kit: list-structure helpers. -/

theorem mem_take_one_append {A B : Str} {c : Char} (h : c ∈ (A ++ B).take 1) :
    c ∈ A.take 1 ∨ (A = [] ∧ c ∈ B.take 1) := by
  cases A with
  | nil => exact Or.inr ⟨rfl, h⟩
  | cons a t => exact Or.inl (by simpa using h)

theorem dropWhile_head_false {p : Char → Bool} : ∀ {l : Str} {c : Char},
    c ∈ (l.dropWhile p).take 1 → p c = false := by
  intro l
  induction l with
  | nil => intro c hc; simp at hc
  | cons a t ih =>
    intro c hc
    by_cases hp : p a = true
    · rw [List.dropWhile_cons_of_pos hp] at hc
      exact ih hc
    · rw [List.dropWhile_cons_of_neg hp] at hc
      simp only [List.take, List.mem_cons, List.not_mem_nil, or_false] at hc
      subst hc
      exact Bool.eq_false_iff.mpr hp

theorem takeWhile_ne_append {ch : Char} {A B : Str} (hA : AllP (· ≠ ch) A)
    (hB : ∀ c, c ∈ B.take 1 → c = ch) :
    (A ++ B).takeWhile (· ≠ ch) = A ∧ (A ++ B).dropWhile (· ≠ ch) = B := by
  induction A with
  | nil =>
    cases B with
    | nil => exact ⟨rfl, rfl⟩
    | cons b t =>
      have hb : b = ch := hB b (by simp)
      subst hb
      constructor
      · simp [List.takeWhile_cons]
      · simp [List.dropWhile_cons]
  | cons a A ih =>
    have ha : a ≠ ch := hA a (List.mem_cons_self _ _)
    have ih2 := ih (fun c hc => hA c (List.mem_cons_of_mem a hc))
    constructor
    · rw [List.cons_append, List.takeWhile_cons_of_pos (by simp [ha]), ih2.1]
    · rw [List.cons_append, List.dropWhile_cons_of_pos (by simp [ha]), ih2.2]

theorem takeWhile_nondelim_append {A B : Str}
    (hA : AllP (fun c => isNetlocDelim c = false) A)
    (hB : ∀ c, c ∈ B.take 1 → isNetlocDelim c = true) :
    (A ++ B).takeWhile (fun c => !isNetlocDelim c) = A ∧
    (A ++ B).dropWhile (fun c => !isNetlocDelim c) = B := by
  induction A with
  | nil =>
    cases B with
    | nil => exact ⟨rfl, rfl⟩
    | cons b t =>
      have hb : isNetlocDelim b = true := hB b (by simp)
      constructor
      · simp [List.takeWhile_cons, hb]
      · simp [List.dropWhile_cons, hb]
  | cons a A ih =>
    have ha : isNetlocDelim a = false := hA a (List.mem_cons_self _ _)
    have ih2 := ih (fun c hc => hA c (List.mem_cons_of_mem a hc))
    constructor
    · rw [List.cons_append, List.takeWhile_cons_of_pos (by simp [ha]), ih2.1]
    · rw [List.cons_append, List.dropWhile_cons_of_pos (by simp [ha]), ih2.2]

theorem pInsert_head {url : Str} : ∀ c, c ∈ (pInsert url).take 1 → c = '/' := by
  unfold pInsert
  split
  · intro c hc
    simpa using hc
  · rename_i hcond
    intro c hc
    cases url with
    | nil => simp at hc
    | cons a t =>
      have h1 : (a :: t).take 1 = ['/'] := by
        by_contra hne
        exact hcond ⟨by simp, hne⟩
      rw [h1] at hc
      simpa using hc

theorem pInsert_eq_self {u : Str} (h : ∀ c, c ∈ u.take 1 → c = '/') : pInsert u = u := by
  unfold pInsert
  split
  · rename_i hc
    exfalso
    cases u with
    | nil => exact hc.1 rfl
    | cons a t =>
      have ha : a = '/' := h a (by simp)
      exact hc.2 (by subst ha; rfl)
  · rfl

theorem pInsert_AllP {P : Char → Prop} (hs : P '/') {url : Str} (h : AllP P url) :
    AllP P (pInsert url) := by
  unfold pInsert
  split
  · exact AllP_cons hs h
  · exact h

theorem pInsert_idem (url : Str) : pInsert (pInsert url) = pInsert url :=
  pInsert_eq_self pInsert_head

theorem firstOcc_single_boundary {c : Char} {C S : Str} (hC : C.contains c = false) :
    firstOcc [c] (C ++ c :: S) = some C.length := by
  have hocc : [c].isPrefixOf ((C ++ c :: S).drop C.length) = true := by
    rw [List.drop_left]
    exact isPrefixOf_iff_append.mpr ⟨S, rfl⟩
  obtain ⟨j, hj, hfo⟩ := firstOcc_le_of_occurs hocc
  obtain ⟨h1, _⟩ := firstOcc_some hfo
  rcases Nat.lt_or_ge j C.length with hlt | hge
  · exfalso
    obtain ⟨t, ht⟩ := isPrefixOf_iff_append.mp h1
    have hget : (C ++ c :: S).drop j = C.drop j ++ c :: S := by
      rw [List.drop_append_of_le_length (Nat.le_of_lt hlt)]
    rw [hget] at ht
    cases hd : C.drop j with
    | nil =>
      have hlen := List.length_drop j C
      rw [hd] at hlen
      simp at hlen
      omega
    | cons x xs =>
      rw [hd] at ht
      injection ht with hx _
      have hmem : c ∈ C := by
        have hx2 : x ∈ C.drop j := by
          rw [hd]
          exact List.mem_cons_self x xs
        rw [hx] at hx2
        exact List.mem_of_mem_drop hx2
      rw [List.contains_eq_any_beq] at hC
      simp at hC
      exact hC c hmem rfl
  · have hj2 : j = C.length := Nat.le_antisymm hj hge
    rw [hj2] at hfo
    exact hfo

/-! Idempotence kit: computation of the `urlsplit` stages on assembled
URLs, and structural facts about the components. -/

theorem hasChar_true_of_mem {c : Char} {s : Str} (h : c ∈ s) : hasChar c s = true := by
  unfold hasChar
  rw [List.contains_eq_any_beq, List.any_eq_true]
  exact ⟨c, h, by simp⟩

theorem splitScheme_boundary {scheme r dflt : Str}
    (h0 : scheme ≠ [])
    (hcol : scheme.contains ':' = false)
    (hh : ((scheme ++ ':' :: r).headD ' ').toNat < 128 ∧
      ((scheme ++ ':' :: r).headD ' ').isAlpha = true)
    (hall : scheme.all (fun c => schemeChars.contains c) = true)
    (hlow : pyLower scheme = scheme) :
    splitScheme (scheme ++ ':' :: r) dflt = (scheme, r) := by
  have hfo : firstOcc [':'] (scheme ++ ':' :: r) = some scheme.length :=
    firstOcc_single_boundary hcol
  have hdrop : (scheme ++ ':' :: r).drop (scheme.length + 1) = r := by
    have he : scheme ++ ':' :: r = (scheme ++ [':']) ++ r := by simp
    have hl : scheme.length + 1 = (scheme ++ [':']).length := by simp
    rw [he, hl, List.drop_left]
  unfold splitScheme
  simp only [hfo]
  have hcond : 0 < scheme.length ∧ (((scheme ++ ':' :: r).headD ' ').toNat < 128) ∧
      (((scheme ++ ':' :: r).headD ' ').isAlpha = true) ∧
      (((scheme ++ ':' :: r).take scheme.length).all
        (fun c => schemeChars.contains c) = true) := by
    refine ⟨List.length_pos.mpr h0, hh.1, hh.2, ?_⟩
    rw [List.take_left]
    exact hall
  rw [if_pos hcond, List.take_left, hlow, hdrop]

theorem splitNetloc_boundary {N T : Str}
    (hN : AllP (fun c => isNetlocDelim c = false) N)
    (hT : ∀ c, c ∈ T.take 1 → isNetlocDelim c = true) :
    splitNetloc (str "//" ++ N ++ T) = (N, T) := by
  have hd : (str "//" ++ N ++ T).drop 2 = N ++ T := by
    rw [List.append_assoc]
    rfl
  have ht2 : (str "//" ++ N ++ T).take 2 = str "//" := by
    rw [List.append_assoc]
    rfl
  unfold splitNetloc
  rw [if_pos ht2, hd]
  have hTW := takeWhile_nondelim_append hN hT
  rw [hTW.1, hTW.2]

theorem splitFragment_no_marker {X : Str} (hX : AllP (· ≠ '#') X) :
    splitFragment X = (X, []) := by
  unfold splitFragment
  rw [if_neg (by simp [AllP_hasChar_false hX])]

theorem splitFragment_marker {X f : Str} (hX : AllP (· ≠ '#') X) :
    splitFragment (X ++ '#' :: f) = (X, f) := by
  have hm : hasChar '#' (X ++ '#' :: f) = true :=
    hasChar_true_of_mem (by simp)
  unfold splitFragment
  rw [if_pos hm]
  unfold before1 after1
  have hB : ∀ c, c ∈ ('#' :: f).take 1 → c = '#' := fun c hc => by simpa using hc
  have hTW := takeWhile_ne_append hX hB
  rw [hTW.1, hTW.2]
  rfl

theorem splitQuery_no_marker {X : Str} (hX : AllP (· ≠ '?') X) :
    splitQuery X = (X, []) := by
  unfold splitQuery
  rw [if_neg (by simp [AllP_hasChar_false hX])]

theorem splitQuery_marker {X q : Str} (hX : AllP (· ≠ '?') X) :
    splitQuery (X ++ '?' :: q) = (X, q) := by
  have hm : hasChar '?' (X ++ '?' :: q) = true :=
    hasChar_true_of_mem (by simp)
  unfold splitQuery
  rw [if_pos hm]
  unfold before1 after1
  have hB : ∀ c, c ∈ ('?' :: q).take 1 → c = '?' := fun c hc => by simpa using hc
  have hTW := takeWhile_ne_append hX hB
  rw [hTW.1, hTW.2]
  rfl

theorem splitNetloc_fst_nondelim (r : Str) :
    AllP (fun c => isNetlocDelim c = false) (splitNetloc r).1 := by
  unfold splitNetloc
  split
  · intro c hc
    have h2 := List.mem_takeWhile_imp
      (show c ∈ (r.drop 2).takeWhile (fun c => !isNetlocDelim c) from hc)
    simpa using h2
  · intro c hc
    exact absurd hc (List.not_mem_nil c)

theorem splitFragment_fst_no_hash (r : Str) : AllP (· ≠ '#') (splitFragment r).1 := by
  unfold splitFragment
  split
  · intro c hc
    have h2 := List.mem_takeWhile_imp (show c ∈ r.takeWhile (· ≠ '#') from hc)
    simpa using h2
  · rename_i hno
    intro c hc he
    subst he
    exact hno (hasChar_true_of_mem hc)

theorem splitQuery_fst_no_q (r : Str) : AllP (· ≠ '?') (splitQuery r).1 := by
  unfold splitQuery
  split
  · intro c hc
    have h2 := List.mem_takeWhile_imp (show c ∈ r.takeWhile (· ≠ '?') from hc)
    simpa using h2
  · rename_i hno
    intro c hc he
    subst he
    exact hno (hasChar_true_of_mem hc)

theorem urlsplitM_netloc_nondelim (u d : Str) :
    AllP (fun c => isNetlocDelim c = false) (urlsplitM u d).netloc := by
  simp only [urlsplitM]
  exact splitNetloc_fst_nondelim _

theorem urlsplitM_path_no_q (u d : Str) : AllP (· ≠ '?') (urlsplitM u d).path := by
  simp only [urlsplitM]
  exact splitQuery_fst_no_q _

theorem urlsplitM_path_no_hash (u d : Str) : AllP (· ≠ '#') (urlsplitM u d).path := by
  simp only [urlsplitM]
  exact (splitQuery_AllP (splitFragment_fst_no_hash _)).1

theorem urlsplitM_query_no_hash (u d : Str) : AllP (· ≠ '#') (urlsplitM u d).query := by
  simp only [urlsplitM]
  exact (splitQuery_AllP (splitFragment_fst_no_hash _)).2

theorem urlparseM_scheme_eq (u d : Str) : (urlparseM u d).scheme = (urlsplitM u d).scheme := by
  simp only [urlparseM]
  split <;> rfl

theorem urlparseM_netloc_eq (u d : Str) : (urlparseM u d).netloc = (urlsplitM u d).netloc := by
  simp only [urlparseM]
  split <;> rfl

theorem urlparseM_fragment_eq (u d : Str) :
    (urlparseM u d).fragment = (urlsplitM u d).fragment := by
  simp only [urlparseM]
  split <;> rfl

theorem urlparseM_netloc_nondelim (u d : Str) :
    AllP (fun c => isNetlocDelim c = false) (urlparseM u d).netloc := by
  rw [urlparseM_netloc_eq]
  exact urlsplitM_netloc_nondelim u d

theorem urlparseM_path_no_q (u d : Str) : AllP (· ≠ '?') (urlparseM u d).path := by
  simp only [urlparseM]
  split
  · exact (splitparamsM_AllP (urlsplitM_path_no_q u d)).1
  · exact urlsplitM_path_no_q u d

theorem urlparseM_path_no_hash (u d : Str) : AllP (· ≠ '#') (urlparseM u d).path := by
  simp only [urlparseM]
  split
  · exact (splitparamsM_AllP (urlsplitM_path_no_hash u d)).1
  · exact urlsplitM_path_no_hash u d

theorem urlparseM_query_no_hash (u d : Str) : AllP (· ≠ '#') (urlparseM u d).query := by
  rw [urlparseM_query_eq]
  exact urlsplitM_query_no_hash u d

theorem urlsplitM_path_no_semi {u d : Str} (hu : AllP (· ≠ ';') u) (hd : AllP (· ≠ ';') d) :
    AllP (· ≠ ';') (urlsplitM u d).path :=
  (urlsplitM_AllP hu hd (by decide)).2.2.1

theorem urlparseM_params_nil {u d : Str} (hu : AllP (· ≠ ';') u) (hd : AllP (· ≠ ';') d) :
    (urlparseM u d).params = [] ∧ (urlparseM u d).path = (urlsplitM u d).path := by
  have hp := urlsplitM_path_no_semi hu hd
  simp only [urlparseM]
  rw [if_neg (by
    intro hcond
    have h2 := hcond.2
    rw [AllP_hasChar_false hp] at h2
    simp at h2)]
  exact ⟨rfl, rfl⟩

theorem urlsplitM_fragment_nil {u d : Str} (hu : AllP (· ≠ '#') u) (hd : AllP (· ≠ '#') d) :
    (urlsplitM u d).fragment = [] := by
  have hu1 : AllP (· ≠ '#') (removeUnsafeBytes (u.dropWhile isC0OrSpace)) :=
    AllP_removeUnsafe (AllP_dropWhile hu _)
  have hd1 : AllP (· ≠ '#') (removeUnsafeBytes (stripC0 d)) :=
    AllP_removeUnsafe (AllP_stripC0 hd)
  have hsch : ∀ c, c ∈ schemeChars → (Char.toLower c) ≠ '#' := by decide
  obtain ⟨hs1, hs2⟩ := splitScheme_AllP hu1 hd1 hsch
  obtain ⟨hn1, hn2⟩ := splitNetloc_AllP hs2
  show (splitFragment (splitNetloc
    (splitScheme (removeUnsafeBytes (u.dropWhile isC0OrSpace))
      (removeUnsafeBytes (stripC0 d))).2).2).2 = []
  rw [splitFragment_no_marker hn2]

theorem urlparseM_fragment_nil {u d : Str} (hu : AllP (· ≠ '#') u) (hd : AllP (· ≠ '#') d) :
    (urlparseM u d).fragment = [] := by
  rw [urlparseM_fragment_eq]
  exact urlsplitM_fragment_nil hu hd

theorem urlunsplitM_normal {scheme netloc url query frag : Str}
    (hsne : scheme ≠ []) (hn : netloc ≠ []) :
    urlunsplitM scheme netloc url query frag =
      scheme ++ ':' :: (str "//" ++ netloc ++ (pInsert url ++
        (if query ≠ [] then '?' :: query else []) ++
        (if frag ≠ [] then '#' :: frag else []))) := by
  simp only [urlunsplitM]
  rw [if_pos (Or.inl hn), if_pos hsne]
  by_cases hq : query = []
  · by_cases hf : frag = []
    · rw [if_neg (by simp [hf]), if_neg (by simp [hq])]
      simp [hq, hf, List.append_assoc]
    · rw [if_pos hf, if_neg (by simp [hq])]
      simp [hq, hf, List.append_assoc]
  · by_cases hf : frag = []
    · rw [if_neg (by simp [hf]), if_pos hq]
      simp [hq, hf, List.append_assoc]
    · rw [if_pos hf, if_pos hq]
      simp [hq, hf, List.append_assoc]

/-! Idempotence kit: `urlsplit`/`urlparse` round-trip on `urlunsplit`
output. -/

theorem urlsplitM_shape {scheme netloc T d : Str}
    (hs : scheme = str "http" ∨ scheme = str "https")
    (hnd : AllP (fun c => isNetlocDelim c = false) netloc)
    (hTh : ∀ c, c ∈ T.take 1 → isNetlocDelim c = true)
    (hclean : AllP (fun c => cleanChar c = true) (netloc ++ T)) :
    urlsplitM (scheme ++ ':' :: (str "//" ++ netloc ++ T)) d =
      ⟨scheme, netloc, (splitQuery (splitFragment T).1).1,
       (splitQuery (splitFragment T).1).2, (splitFragment T).2⟩ := by
  have hcs : AllP (fun c => cleanChar c = true) scheme := by
    rcases hs with h | h <;> subst h <;> decide
  have hcv : AllP (fun c => cleanChar c = true)
      (scheme ++ ':' :: (str "//" ++ netloc ++ T)) := by
    refine AllP_append hcs (AllP_cons (by decide) ?_)
    refine AllP_append (AllP_append (by decide) ?_) ?_
    · exact fun c hc => hclean c (List.mem_append.mpr (Or.inl hc))
    · exact fun c hc => hclean c (List.mem_append.mpr (Or.inr hc))
  have hstrip : (scheme ++ ':' :: (str "//" ++ netloc ++ T)).dropWhile isC0OrSpace =
      scheme ++ ':' :: (str "//" ++ netloc ++ T) := dropC0_eq_of_clean hcv
  have hru : removeUnsafeBytes (scheme ++ ':' :: (str "//" ++ netloc ++ T)) =
      scheme ++ ':' :: (str "//" ++ netloc ++ T) := removeUnsafeBytes_eq_of_clean hcv
  have hsch2 : splitScheme (scheme ++ ':' :: (str "//" ++ netloc ++ T))
      (removeUnsafeBytes (stripC0 d)) = (scheme, str "//" ++ netloc ++ T) := by
    rcases hs with h | h <;> subst h
    · exact splitScheme_boundary (by decide) (by decide)
        ⟨of_decide_eq_true rfl, rfl⟩ (by decide) (by decide)
    · exact splitScheme_boundary (by decide) (by decide)
        ⟨of_decide_eq_true rfl, rfl⟩ (by decide) (by decide)
  have hnl : splitNetloc (str "//" ++ netloc ++ T) = (netloc, T) :=
    splitNetloc_boundary hnd hTh
  simp only [urlsplitM]
  rw [hstrip, hru, hsch2]
  dsimp only
  rw [hnl]

theorem urlsplitM_of_unsplit {scheme netloc url query frag d : Str}
    (hs : scheme = str "http" ∨ scheme = str "https")
    (hn : netloc ≠ [])
    (hnd : AllP (fun c => isNetlocDelim c = false) netloc)
    (hcn : AllP (fun c => cleanChar c = true) netloc)
    (hcu : AllP (fun c => cleanChar c = true) url)
    (hcq : AllP (fun c => cleanChar c = true) query)
    (hcf : AllP (fun c => cleanChar c = true) frag)
    (huh : AllP (· ≠ '#') url) (huq : AllP (· ≠ '?') url)
    (hqh : AllP (· ≠ '#') query) :
    urlsplitM (urlunsplitM scheme netloc url query frag) d =
      ⟨scheme, netloc, pInsert url, query, frag⟩ := by
  have hsne : scheme ≠ [] := by rcases hs with h | h <;> subst h <;> decide
  rw [urlunsplitM_normal hsne hn]
  have hTh : ∀ c, c ∈ (pInsert url ++ (if query ≠ [] then '?' :: query else []) ++
      (if frag ≠ [] then '#' :: frag else [])).take 1 → isNetlocDelim c = true := by
    intro c hc
    rcases mem_take_one_append hc with h1 | ⟨he, h1⟩
    · rcases mem_take_one_append h1 with h2 | ⟨he2, h2⟩
      · rw [pInsert_head c h2]
        decide
      · revert h2
        split
        · intro h2
          have hc2 : c = '?' := by simpa using h2
          rw [hc2]
          decide
        · intro h2
          simp at h2
    · revert h1
      split
      · intro h1
        have hc2 : c = '#' := by simpa using h1
        rw [hc2]
        decide
      · intro h1
        simp at h1
  have hclean : AllP (fun c => cleanChar c = true)
      (netloc ++ (pInsert url ++ (if query ≠ [] then '?' :: query else []) ++
        (if frag ≠ [] then '#' :: frag else []))) := by
    refine AllP_append hcn ?_
    refine AllP_append (AllP_append (pInsert_AllP (by decide) hcu) ?_) ?_
    · split
      · exact AllP_cons (by decide) hcq
      · exact AllP_nil
    · split
      · exact AllP_cons (by decide) hcf
      · exact AllP_nil
  rw [urlsplitM_shape hs hnd hTh hclean]
  by_cases hq : query ≠ []
  · by_cases hf : frag ≠ []
    · rw [if_pos hf, if_pos hq]
      rw [splitFragment_marker
        (AllP_append (pInsert_AllP (by decide) huh) (AllP_cons (by decide) hqh))]
      dsimp only
      rw [splitQuery_marker (pInsert_AllP (by decide) huq)]
    · have hf2 : frag = [] := not_ne_iff.mp hf
      rw [if_neg hf, if_pos hq]
      rw [List.append_nil]
      rw [splitFragment_no_marker
        (AllP_append (pInsert_AllP (by decide) huh) (AllP_cons (by decide) hqh))]
      dsimp only
      rw [splitQuery_marker (pInsert_AllP (by decide) huq)]
      rw [hf2]
  · have hq2 : query = [] := not_ne_iff.mp hq
    by_cases hf : frag ≠ []
    · rw [if_pos hf, if_neg hq]
      rw [List.append_nil]
      rw [splitFragment_marker (pInsert_AllP (by decide) huh)]
      dsimp only
      rw [splitQuery_no_marker (pInsert_AllP (by decide) huq)]
      rw [hq2]
    · have hf2 : frag = [] := not_ne_iff.mp hf
      rw [if_neg hf, if_neg hq]
      rw [List.append_nil, List.append_nil]
      rw [splitFragment_no_marker (pInsert_AllP (by decide) huh)]
      dsimp only
      rw [splitQuery_no_marker (pInsert_AllP (by decide) huq)]
      rw [hq2, hf2]

theorem urlparseM_of_unsplit {scheme netloc url query frag d : Str}
    (hs : scheme = str "http" ∨ scheme = str "https")
    (hn : netloc ≠ [])
    (hnd : AllP (fun c => isNetlocDelim c = false) netloc)
    (hcn : AllP (fun c => cleanChar c = true) netloc)
    (hcu : AllP (fun c => cleanChar c = true) url)
    (hcq : AllP (fun c => cleanChar c = true) query)
    (hcf : AllP (fun c => cleanChar c = true) frag)
    (huh : AllP (· ≠ '#') url) (huq : AllP (· ≠ '?') url)
    (hqh : AllP (· ≠ '#') query) (husemi : AllP (· ≠ ';') url) :
    urlparseM (urlunsplitM scheme netloc url query frag) d =
      ⟨scheme, netloc, pInsert url, [], query, frag⟩ := by
  simp only [urlparseM]
  rw [urlsplitM_of_unsplit hs hn hnd hcn hcu hcq hcf huh huq hqh]
  dsimp only
  rw [if_neg (by
    intro hcond
    have h2 := hcond.2
    rw [AllP_hasChar_false (pInsert_AllP (by decide) husemi)] at h2
    simp at h2)]

theorem urlunsplitM_pInsert {scheme netloc url query frag : Str} (hn : netloc ≠ []) :
    urlunsplitM scheme netloc (pInsert url) query frag =
      urlunsplitM scheme netloc url query frag := by
  simp only [urlunsplitM]
  rw [if_pos (Or.inl hn), if_pos (Or.inl hn), pInsert_idem]

theorem urlunparseM_of_parts {scheme netloc url query frag : Str} (hn : netloc ≠ []) :
    urlunparseM ⟨scheme, netloc, pInsert url, [], query, frag⟩ =
      urlunsplitM scheme netloc url query frag := by
  simp only [urlunparseM]
  rw [if_neg (by simp)]
  exact urlunsplitM_pInsert hn

/-! Idempotence kit: fixed-point lemmas. -/

theorem unsplit_gates_false {scheme R : Str}
    (hs : scheme = str "http" ∨ scheme = str "https") :
    (List.isPrefixOf (str "#") (scheme ++ ':' :: R)) = false ∧
    (List.isPrefixOf (str "javascript:") (pyLower (scheme ++ ':' :: R))) = false ∧
    (List.isPrefixOf (str "mailto:") (pyLower (scheme ++ ':' :: R))) = false ∧
    (List.isPrefixOf (str "//") (scheme ++ ':' :: R)) = false := by
  rcases hs with h | h <;> subst h <;> exact ⟨rfl, rfl, rfl, rfl⟩

/-- A well-formed absolute `http(s)` URL whose scheme matches the base's
is a fixed point of `urljoin` against that base. -/
theorem urljoinM_unsplit_fixed {b scheme netloc url query frag : Str}
    (hbne : b ≠ [])
    (hbs : (urlparseM b []).scheme = scheme)
    (hs : scheme = str "http" ∨ scheme = str "https")
    (hn : netloc ≠ [])
    (hnd : AllP (fun c => isNetlocDelim c = false) netloc)
    (hcn : AllP (fun c => cleanChar c = true) netloc)
    (hcu : AllP (fun c => cleanChar c = true) url)
    (hcq : AllP (fun c => cleanChar c = true) query)
    (hcf : AllP (fun c => cleanChar c = true) frag)
    (huh : AllP (· ≠ '#') url) (huq : AllP (· ≠ '?') url)
    (hqh : AllP (· ≠ '#') query) (husemi : AllP (· ≠ ';') url) :
    urljoinM b (urlunsplitM scheme netloc url query frag) =
      urlunsplitM scheme netloc url query frag := by
  have hsne : scheme ≠ [] := by rcases hs with h | h <;> subst h <;> decide
  have hvne : urlunsplitM scheme netloc url query frag ≠ [] := by
    rw [urlunsplitM_normal hsne hn]
    simp
  have hP : urlparseM (urlunsplitM scheme netloc url query frag) (urlparseM b []).scheme =
      ⟨scheme, netloc, pInsert url, [], query, frag⟩ :=
    urlparseM_of_unsplit hs hn hnd hcn hcu hcq hcf huh huq hqh husemi
  simp only [urljoinM]
  rw [if_neg hbne, if_neg hvne, hP]
  dsimp only
  rw [if_neg (by
      intro hc
      rcases hc with h1 | h1
      · exact h1 hbs.symm
      · rcases hs with h | h <;> subst h <;> exact h1 (by decide))]
  rw [if_pos ⟨by rcases hs with h | h <;> subst h <;> decide, hn⟩]
  exact urlunparseM_of_parts hn

/-- A well-formed absolute `http(s)` URL whose scheme matches the base's
is a fixed point of `normalize_url` against that base. -/
theorem normalize_url_fixed {b scheme netloc url query frag : Str}
    (hbne : b ≠ [])
    (hbs : (urlparseM b []).scheme = scheme)
    (hs : scheme = str "http" ∨ scheme = str "https")
    (hn : netloc ≠ [])
    (hnd : AllP (fun c => isNetlocDelim c = false) netloc)
    (hcn : AllP (fun c => cleanChar c = true) netloc)
    (hcu : AllP (fun c => cleanChar c = true) url)
    (hcq : AllP (fun c => cleanChar c = true) query)
    (hcf : AllP (fun c => cleanChar c = true) frag)
    (huh : AllP (· ≠ '#') url) (huq : AllP (· ≠ '?') url)
    (hqh : AllP (· ≠ '#') query) (husemi : AllP (· ≠ ';') url) :
    normalize_url b (some (urlunsplitM scheme netloc url query frag)) =
      some (urlunsplitM scheme netloc url query frag) := by
  have hsne : scheme ≠ [] := by rcases hs with h | h <;> subst h <;> decide
  have hNF : urlunsplitM scheme netloc url query frag =
      scheme ++ ':' :: (str "//" ++ netloc ++ (pInsert url ++
        (if query ≠ [] then '?' :: query else []) ++
        (if frag ≠ [] then '#' :: frag else []))) := urlunsplitM_normal hsne hn
  have hvne : urlunsplitM scheme netloc url query frag ≠ [] := by
    rw [hNF]
    simp
  have hcv : AllP (fun c => cleanChar c = true) (urlunsplitM scheme netloc url query frag) := by
    rw [hNF]
    have hcs : AllP (fun c => cleanChar c = true) scheme := by
      rcases hs with h | h <;> subst h <;> decide
    refine AllP_append hcs (AllP_cons (by decide) ?_)
    refine AllP_append (AllP_append (by decide) hcn) ?_
    refine AllP_append (AllP_append (pInsert_AllP (by decide) hcu) ?_) ?_
    · split
      · exact AllP_cons (by decide) hcq
      · exact AllP_nil
    · split
      · exact AllP_cons (by decide) hcf
      · exact AllP_nil
  have hstrip : pyStrip (urlunsplitM scheme netloc url query frag) =
      urlunsplitM scheme netloc url query frag := pyStrip_eq_of_clean hcv
  have hg1 : (List.isPrefixOf (str "#") (urlunsplitM scheme netloc url query frag)) = false := by
    rw [hNF]
    exact (unsplit_gates_false hs).1
  have hg2 : (List.isPrefixOf (str "javascript:")
      (pyLower (urlunsplitM scheme netloc url query frag))) = false := by
    rw [hNF]
    exact (unsplit_gates_false hs).2.1
  have hg3 : (List.isPrefixOf (str "mailto:")
      (pyLower (urlunsplitM scheme netloc url query frag))) = false := by
    rw [hNF]
    exact (unsplit_gates_false hs).2.2.1
  have hg4 : (List.isPrefixOf (str "//") (urlunsplitM scheme netloc url query frag)) = false := by
    rw [hNF]
    exact (unsplit_gates_false hs).2.2.2
  simp only [normalize_url]
  rw [if_neg hvne, hstrip]
  rw [if_neg (by
    intro hc
    rcases hc with h1 | h1 | h1
    · rw [hg1] at h1
      simp at h1
    · rw [hg2] at h1
      simp at h1
    · rw [hg3] at h1
      simp at h1)]
  rw [if_neg (by
    rw [hg4]
    simp)]
  rw [urljoinM_unsplit_fixed hbne hbs hs hn hnd hcn hcu hcq hcf huh huq hqh husemi]

theorem urljoinResolve_as_unsplit {bp : Str} {u : UrlParts} {netloc : Str}
    (hpar : u.params = []) :
    urljoinResolve bp u netloc =
      urlunsplitM u.scheme netloc (resolvedPath bp u.path) u.query u.fragment := by
  simp only [urljoinResolve, urlunparseM]
  rw [hpar, if_neg (by simp)]

set_option maxHeartbeats 1600000 in
/-- C9 (amended): `normalize_url` is idempotent on the absence cases
(`None` maps to `None`) and on every href of printable bracket-free
ASCII without `?`, `#` or `;` characters — with a non-degenerate
authority when the href starts with `//` — against a canonical
`http(s)` base.  Without these provisos idempotence fails: the `//`
branch copies the href verbatim behind the base's scheme, and a second
pass re-parses it and can drop an empty query marker. -/
theorem normalize_url_idempotent (b : Str) (x : Option Str)
    (hb : canonicalHttpBase b = true)
    (hx : ∀ h0, x = some h0 → h0.all plainChar = true ∧
      (List.isPrefixOf (str "//") h0 = true →
        (h0.drop 2).takeWhile (fun c => !isNetlocDelim c) ≠ [])) :
    normalize_url b (normalize_url b x) = normalize_url b x := by
  unfold canonicalHttpBase at hb
  simp only [Bool.and_eq_true, Bool.or_eq_true, beq_iff_eq, Bool.not_eq_true',
    beq_eq_false_iff_ne, ne_eq, List.all_eq_true] at hb
  obtain ⟨⟨hball, hbs⟩, hbn⟩ := hb
  have hbclean : AllP (fun c => cleanChar c = true) b := fun c hc => (hball c hc).1
  have hbsemi : AllP (· ≠ ';') b := fun c hc => (hball c hc).2
  have hbne : b ≠ [] := by
    intro h
    rw [h] at hbn
    exact hbn (by decide)
  have hbsq : AllP (· ≠ '?') (urlparseM b []).scheme := by
    rcases hbs with h | h <;> rw [h] <;> decide
  have hbsh : AllP (· ≠ '#') (urlparseM b []).scheme := by
    rcases hbs with h | h <;> rw [h] <;> decide
  have hbssemi : AllP (· ≠ ';') (urlparseM b []).scheme := by
    rcases hbs with h | h <;> rw [h] <;> decide
  have hbsclean : AllP (fun c => cleanChar c = true) (urlparseM b []).scheme := by
    rcases hbs with h | h <;> rw [h] <;> decide
  have hschemeClean : ∀ c, c ∈ schemeChars → cleanChar (Char.toLower c) = true := by decide
  have huAllb := urlparseM_AllP hbclean AllP_nil hschemeClean
  have huSemib := urlparseM_AllP hbsemi AllP_nil (by decide)
  obtain ⟨hbpnil, hbpatheq⟩ := urlparseM_params_nil hbsemi AllP_nil
  cases x with
  | none => rfl
  | some h0 =>
    obtain ⟨hplain0, hslash0⟩ := hx h0 rfl
    have hplainA := all_to_AllP hplain0
    have hclean0 : AllP (fun c => cleanChar c = true) h0 :=
      fun c hc => plainChar_clean (hplainA c hc)
    have hq0 : AllP (· ≠ '?') h0 := fun c hc => (plainChar_props (hplainA c hc)).1
    have hh0 : AllP (· ≠ '#') h0 := fun c hc => (plainChar_props (hplainA c hc)).2.1
    have hs0 : AllP (· ≠ ';') h0 := fun c hc => (plainChar_props (hplainA c hc)).2.2
    by_cases h0nil : h0 = []
    · subst h0nil
      rfl
    have hstrip0 : pyStrip h0 = h0 := pyStrip_eq_of_clean hclean0
    by_cases hg : List.isPrefixOf (str "#") (pyStrip h0) = true ∨
        List.isPrefixOf (str "javascript:") (pyLower (pyStrip h0)) = true ∨
        List.isPrefixOf (str "mailto:") (pyLower (pyStrip h0)) = true
    · have hfirst : normalize_url b (some h0) = none := by
        simp only [normalize_url]
        rw [if_neg h0nil, if_pos hg]
      rw [hfirst]
      rfl
    by_cases hgg : List.isPrefixOf (str "//") (pyStrip h0) = true
    · have hsch0ne : (urlparseM b []).scheme ≠ [] := by
        rcases hbs with h | h <;> rw [h] <;> decide
      have hfirst : normalize_url b (some h0) =
          some ((urlparseM b []).scheme ++ ':' :: h0) := by
        simp only [normalize_url]
        rw [if_neg h0nil, if_neg hg, if_pos hgg, hstrip0, if_neg hsch0ne]
      have hgg0 : List.isPrefixOf (str "//") h0 = true := by
        rw [← hstrip0]
        exact hgg
      obtain ⟨t, ht⟩ := isPrefixOf_iff_append.mp hgg0
      have htAllClean : AllP (fun c => cleanChar c = true) t := fun c hc =>
        hclean0 c (by rw [ht]; exact List.mem_append.mpr (Or.inr hc))
      have htq : AllP (· ≠ '?') t := fun c hc =>
        hq0 c (by rw [ht]; exact List.mem_append.mpr (Or.inr hc))
      have hth : AllP (· ≠ '#') t := fun c hc =>
        hh0 c (by rw [ht]; exact List.mem_append.mpr (Or.inr hc))
      have hts : AllP (· ≠ ';') t := fun c hc =>
        hs0 c (by rw [ht]; exact List.mem_append.mpr (Or.inr hc))
      have hdrop2 : h0.drop 2 = t := by
        rw [ht]
        rfl
      have hNne : t.takeWhile (fun c => !isNetlocDelim c) ≠ [] := by
        rw [← hdrop2]
        exact hslash0 hgg0
      have hNnd : AllP (fun c => isNetlocDelim c = false)
          (t.takeWhile (fun c => !isNetlocDelim c)) := by
        intro c hc
        have h2 := List.mem_takeWhile_imp hc
        simpa using h2
      have hNclean : AllP (fun c => cleanChar c = true)
          (t.takeWhile (fun c => !isNetlocDelim c)) := AllP_takeWhile htAllClean _
      have hPPclean : AllP (fun c => cleanChar c = true)
          (t.dropWhile (fun c => !isNetlocDelim c)) := AllP_dropWhile htAllClean _
      have hPPq : AllP (· ≠ '?') (t.dropWhile (fun c => !isNetlocDelim c)) :=
        AllP_dropWhile htq _
      have hPPh : AllP (· ≠ '#') (t.dropWhile (fun c => !isNetlocDelim c)) :=
        AllP_dropWhile hth _
      have hPPs : AllP (· ≠ ';') (t.dropWhile (fun c => !isNetlocDelim c)) :=
        AllP_dropWhile hts _
      have hPPhead : ∀ c, c ∈ (t.dropWhile (fun c => !isNetlocDelim c)).take 1 → c = '/' := by
        intro c hc
        have hd := dropWhile_head_false hc
        have hdelim : isNetlocDelim c = true := by simpa using hd
        have hmem : c ∈ t :=
          List.dropWhile_subset _ (List.take_subset 1 _ hc)
        unfold isNetlocDelim at hdelim
        simp only [Bool.or_eq_true, decide_eq_true_eq] at hdelim
        rcases hdelim with (h | h) | h
        · exact h
        · exact absurd h (htq c hmem)
        · exact absurd h (hth c hmem)
      have hsplitt : t = t.takeWhile (fun c => !isNetlocDelim c) ++
          t.dropWhile (fun c => !isNetlocDelim c) :=
        (List.takeWhile_append_dropWhile (fun c => !isNetlocDelim c) t).symm
      have hvform : (urlparseM b []).scheme ++ ':' :: h0 =
          urlunsplitM (urlparseM b []).scheme (t.takeWhile (fun c => !isNetlocDelim c))
            (t.dropWhile (fun c => !isNetlocDelim c)) [] [] := by
        rw [urlunsplitM_normal hsch0ne hNne]
        rw [if_neg (by simp), if_neg (by simp)]
        rw [List.append_nil, List.append_nil]
        rw [pInsert_eq_self hPPhead]
        rw [ht]
        conv_lhs => rw [hsplitt]
        simp [List.append_assoc]
      rw [hfirst, hvform]
      exact normalize_url_fixed hbne rfl hbs hNne hNnd hNclean hPPclean AllP_nil AllP_nil
        hPPh hPPq AllP_nil hPPs
    · have hfirst : normalize_url b (some h0) = some (urljoinM b h0) := by
        simp only [normalize_url]
        rw [if_neg h0nil, if_neg hg, if_neg hgg, hstrip0]
      by_cases hc3 : (urlparseM h0 (urlparseM b []).scheme).scheme ≠ (urlparseM b []).scheme ∨
          (urlparseM h0 (urlparseM b []).scheme).scheme ∉ usesRelative
      · have hjoin : urljoinM b h0 = h0 := by
          simp only [urljoinM]
          rw [if_neg hbne, if_neg h0nil, if_pos hc3]
        rw [hfirst, hjoin, hfirst, hjoin]
      · obtain ⟨hc3a, hc3b⟩ : (urlparseM h0 (urlparseM b []).scheme).scheme =
            (urlparseM b []).scheme ∧
            (urlparseM h0 (urlparseM b []).scheme).scheme ∈ usesRelative := by
          have h := hc3
          push_neg at h
          exact h
        have husch : (urlparseM h0 (urlparseM b []).scheme).scheme = str "http" ∨
            (urlparseM h0 (urlparseM b []).scheme).scheme = str "https" := by
          rw [hc3a]
          exact hbs
        have huqnil : (urlparseM h0 (urlparseM b []).scheme).query = [] :=
          urlparseM_query_nil hq0 hbsq
        have hufnil : (urlparseM h0 (urlparseM b []).scheme).fragment = [] :=
          urlparseM_fragment_nil hh0 hbsh
        obtain ⟨hupnil, hupatheq⟩ := urlparseM_params_nil hs0 hbssemi
        have huClean := urlparseM_AllP hclean0 hbsclean hschemeClean
        have huSemi := urlparseM_AllP hs0 hbssemi (by decide)
        have hund := urlparseM_netloc_nondelim h0 (urlparseM b []).scheme
        have hupq := urlparseM_path_no_q h0 (urlparseM b []).scheme
        have huph := urlparseM_path_no_hash h0 (urlparseM b []).scheme
        have huqh := urlparseM_query_no_hash h0 (urlparseM b []).scheme
        by_cases hc4 : (urlparseM h0 (urlparseM b []).scheme).scheme ∈ usesNetloc ∧
            (urlparseM h0 (urlparseM b []).scheme).netloc ≠ []
        · have hjoin : urljoinM b h0 =
              urlunparseM (urlparseM h0 (urlparseM b []).scheme) := by
            simp only [urljoinM]
            rw [if_neg hbne, if_neg h0nil, if_neg hc3, if_pos hc4]
          have hunp : urlunparseM (urlparseM h0 (urlparseM b []).scheme) =
              urlunsplitM (urlparseM h0 (urlparseM b []).scheme).scheme
                (urlparseM h0 (urlparseM b []).scheme).netloc
                (urlparseM h0 (urlparseM b []).scheme).path
                (urlparseM h0 (urlparseM b []).scheme).query
                (urlparseM h0 (urlparseM b []).scheme).fragment := by
            simp only [urlunparseM]
            rw [hupnil, if_neg (by simp)]
          rw [hfirst, hjoin, hunp]
          exact normalize_url_fixed hbne hc3a.symm husch hc4.2 hund
            huClean.2.1 huClean.2.2.1 huClean.2.2.2.2.1 huClean.2.2.2.2.2
            huph hupq huqh huSemi.2.2.1
        · have husenet : (urlparseM h0 (urlparseM b []).scheme).scheme ∈ usesNetloc := by
            rcases husch with h | h <;> rw [h] <;> decide
          by_cases hc5 : (urlparseM h0 (urlparseM b []).scheme).path = [] ∧
              (urlparseM h0 (urlparseM b []).scheme).params = []
          · have hjoin : urljoinM b h0 = urlunparseM
                ⟨(urlparseM h0 (urlparseM b []).scheme).scheme, (urlparseM b []).netloc,
                 (urlparseM b []).path, (urlparseM b []).params, (urlparseM b []).query,
                 (urlparseM h0 (urlparseM b []).scheme).fragment⟩ := by
              simp only [urljoinM]
              rw [if_neg hbne, if_neg h0nil, if_neg hc3, if_neg hc4, if_pos hc5]
              rw [if_pos husenet, huqnil, if_pos rfl]
            have hunp : urlunparseM ⟨(urlparseM h0 (urlparseM b []).scheme).scheme,
                (urlparseM b []).netloc, (urlparseM b []).path, (urlparseM b []).params,
                (urlparseM b []).query, (urlparseM h0 (urlparseM b []).scheme).fragment⟩ =
                urlunsplitM (urlparseM h0 (urlparseM b []).scheme).scheme
                  (urlparseM b []).netloc (urlparseM b []).path (urlparseM b []).query
                  (urlparseM h0 (urlparseM b []).scheme).fragment := by
              simp only [urlunparseM]
              rw [hbpnil, if_neg (by simp)]
            rw [hfirst, hjoin, hunp]
            exact normalize_url_fixed hbne hc3a.symm husch hbn
              (urlparseM_netloc_nondelim b []) huAllb.2.1 huAllb.2.2.1 huAllb.2.2.2.2.1
              huClean.2.2.2.2.2 (urlparseM_path_no_hash b []) (urlparseM_path_no_q b [])
              (urlparseM_query_no_hash b []) huSemib.2.2.1
          · have hjoin : urljoinM b h0 = urljoinResolve (urlparseM b []).path
                (urlparseM h0 (urlparseM b []).scheme) (urlparseM b []).netloc := by
              simp only [urljoinM]
              rw [if_neg hbne, if_neg h0nil, if_neg hc3, if_neg hc4, if_neg hc5,
                if_pos husenet]
            rw [hfirst, hjoin, urljoinResolve_as_unsplit hupnil]
            refine normalize_url_fixed hbne hc3a.symm husch hbn
              (urlparseM_netloc_nondelim b []) huAllb.2.1 ?_ huClean.2.2.2.2.1
              huClean.2.2.2.2.2 ?_ ?_ huqh ?_
            · exact resolvedPath_AllP (by decide) huAllb.2.2.1 huClean.2.2.1
            · exact resolvedPath_AllP (by decide) (urlparseM_path_no_hash b []) huph
            · exact resolvedPath_AllP (by decide) (urlparseM_path_no_q b []) hupq
            · exact resolvedPath_AllP (by decide) huSemib.2.2.1 huSemi.2.2.1

set_option maxHeartbeats 1600000 in
/-- Counterexample to C9 as stated: against base `https://example.com`,
the href `//example.com/p?` normalizes to `https://example.com/p?` (the
`//` branch copies the stripped href verbatim behind the base's
scheme, empty query marker included), but feeding that output back in
drops the marker — the second pass goes through `urljoin`, which
parses an empty query and omits the `?` on reassembly. -/
theorem normalize_url_idempotent_cex :
    normalize_url (str "https://example.com") (some (str "//example.com/p?")) =
      some (str "https://example.com/p?") ∧
    normalize_url (str "https://example.com")
        (normalize_url (str "https://example.com") (some (str "//example.com/p?"))) =
      some (str "https://example.com/p") := by
  constructor
  · decide
  · decide

theorem normalize_url_idempotent_witness :
    canonicalHttpBase (str "https://example.com") = true ∧
    normalize_url (str "https://example.com")
        (normalize_url (str "https://example.com") (some (str "/jobs/view/123"))) =
      normalize_url (str "https://example.com") (some (str "/jobs/view/123")) :=
  ⟨by decide,
   normalize_url_idempotent (str "https://example.com") (some (str "/jobs/view/123"))
     (by decide)
     (fun h0 he => by
       injection he with he
       subst he
       exact ⟨by decide, by decide⟩)⟩
